import Mathlib

/-! shellprinter: a line-annotating writer

A shallow embedding of `shellprinter.go` (package `shellprinter`) and of the
pieces of the Go standard library it calls (`bufio.ScanLines`,
`bytes.IndexByte`, `bytes.Buffer`, `io.Writer`, `errors.Wrap`,
`errors.Errorf`), followed by theorems about `Write` and `Close`.

Modelling conventions:

* a Go `[]byte` is a `List UInt8`; the fields `prefix` and `suffix`, which
  the source compares with `nil`, are `Option Bytes` (`none` is `nil`);
* the downstream `io.Writer` is an arbitrary deterministic behaviour: its
  answer `(n, err)` to a request may depend on every request it has received
  before; the requests are recorded in order;
* the count an `io.Writer` reports is a natural number (it may exceed the
  requested length, it is never negative);
* a `bytes.Buffer` is represented by its unread contents;
* a run either returns, or panics, or (for the loop of `Write`, which is
  driven by a step budget) exhausts its budget.
-/

namespace ShellPrinter

/-! ## Bytes and errors -/

abbrev Byte := UInt8

abbrev Bytes := List Byte

/-- The line-feed byte `'\n'`. -/
def LF : Byte := 10

/-- The carriage-return byte `'\r'`. -/
def CR : Byte := 13

/-- The bytes of a string, as Go's `[]byte("...")`: its UTF-8 encoding. -/
def bs (s : String) : Bytes := s.toUTF8.data.toList

/-- Go error values as far as the package produces or forwards them. -/
inductive GoError where
  /-- `errors.New(msg)`: an error made by the environment (the sink). -/
  | new (msg : String)
  /-- `io.ErrShortWrite`. -/
  | errShortWrite
  /-- `errors.Wrap(cause, message)`. -/
  | wrap (cause : GoError) (message : String)
  /-- `errors.Errorf(...)` with its formatted message. -/
  | errorf (message : String)
  deriving DecidableEq

/-- The method `Error()` of an error value. -/
def GoError.Error : GoError → String
  | .new msg => msg
  | .errShortWrite => "short write"
  | .wrap cause message => message ++ ": " ++ cause.Error
  | .errorf message => message

/-- Go's `len` of a possibly-nil slice. -/
def len (s : Option Bytes) : Nat := (s.getD []).length

/-- The bytes of a possibly-nil slice. -/
def bytesOf (s : Option Bytes) : Bytes := s.getD []

/-- The slice expression `s[lo:hi]`; `none` when Go would panic with an
out-of-range error. -/
def slice (s : Bytes) (lo hi : Nat) : Option Bytes :=
  if lo ≤ hi ∧ hi ≤ s.length then some ((s.take hi).drop lo) else none

/-! ## The downstream `io.Writer` -/

/-- What one call of the sink's `Write` returns: `(n, err)`. -/
structure WriteResult where
  n : Nat
  err : Option GoError
  deriving DecidableEq

/-- An `io.Writer`: a behaviour, which answers a request knowing the requests
received before it, and the requests received so far (oldest first). -/
structure Writer where
  behaviour : List Bytes → Bytes → WriteResult
  received : List Bytes

/-- One call `w.Write(data)`: the request is recorded and answered. -/
def Writer.Write (w : Writer) (data : Bytes) : Writer × WriteResult :=
  ({ w with received := w.received ++ [data] }, w.behaviour w.received data)

/-- All the bytes handed to the sink so far, in order. -/
def Writer.delivered (w : Writer) : Bytes := w.received.flatten

/-- The sink accepts every write in full: it answers `(len(data), nil)`. -/
def Writer.AcceptsAll (w : Writer) : Prop :=
  ∀ (history : List Bytes) (data : Bytes), w.behaviour history data = ⟨data.length, none⟩

/-- A sink that accepts every write in full, with nothing received yet
(such as a fresh `bytes.Buffer`). -/
def acceptAll : Writer := ⟨fun _ data => ⟨data.length, none⟩, []⟩

/-- A sink that answers every request with one fixed result. -/
def constSink (r : WriteResult) : Writer := ⟨fun _ _ => r, []⟩

/-- A mock sink as in the tests: requests listed in `table` get the listed
answer, every other request is accepted in full. -/
def mockSink (table : List (Bytes × WriteResult)) : Writer :=
  ⟨fun _ data => ((table.find? (fun e => e.1 == data)).map Prod.snd).getD ⟨data.length, none⟩, []⟩

/-! ## `bytes.Buffer` -/

/-- A `bytes.Buffer`, represented by its unread bytes `buf[off:]`. -/
structure Buffer where
  unread : Bytes
  deriving DecidableEq

/-- `b.Len()`. -/
def Buffer.Len (b : Buffer) : Nat := b.unread.length

/-- `b.Reset()`. -/
def Buffer.Reset (_b : Buffer) : Buffer := ⟨[]⟩

/-- `b.Write(p)`: appends, returns `(len(p), nil)`. -/
def Buffer.Write (b : Buffer) (p : Bytes) : Buffer × Nat × Option GoError :=
  (⟨b.unread ++ p⟩, p.length, none)

/-- The result of `b.WriteTo(w)`: it returns `(n, err)`, or panics. -/
inductive WriteToResult where
  | returned (b : Buffer) (w : Writer) (n : Nat) (err : Option GoError)
  | panicked (b : Buffer) (w : Writer) (msg : String)

/-- `b.WriteTo(w)` of the standard library:
```
if nBytes := b.Len(); nBytes > 0 {
    m, e := w.Write(b.buf[b.off:])
    if m > nBytes { panic("bytes.Buffer.WriteTo: invalid Write count") }
    b.off += m
    n = int64(m)
    if e != nil { return n, e }
    if m != nBytes { return n, io.ErrShortWrite }
}
b.Reset()
return n, nil
``` -/
def Buffer.WriteTo (b : Buffer) (w : Writer) : WriteToResult :=
  let nBytes := b.Len
  if nBytes > 0 then
    let (w, r) := w.Write b.unread
    let m := r.n
    if m > nBytes then
      .panicked b w "bytes.Buffer.WriteTo: invalid Write count"
    else
      let b : Buffer := ⟨b.unread.drop m⟩
      match r.err with
      | some e => .returned b w m (some e)
      | none =>
        if m ≠ nBytes then .returned b w m (some .errShortWrite)
        else .returned b.Reset w m none
  else
    .returned b.Reset w 0 none

/-! ## `bufio.ScanLines` -/

/-- `bytes.IndexByte(s, c)`: the index of the first `c` in `s`, or `-1`. -/
def IndexByte : Bytes → Byte → Int
  | [], _ => -1
  | b :: s, c =>
    if b = c then 0
    else
      let i := IndexByte s c
      if i ≥ 0 then i + 1 else -1

/-- `dropCR` of package `bufio`: drops a terminal `\r` from the data. -/
def dropCR (data : Bytes) : Bytes :=
  if data.length > 0 ∧ data.getLast? = some CR then data.take (data.length - 1) else data

/-- `bufio.ScanLines(data, atEOF)`, returning `(advance, token, err)`; a nil
token is the empty list. -/
def ScanLines (data : Bytes) (atEOF : Bool) : Nat × Bytes × Option GoError :=
  if atEOF ∧ data.length = 0 then (0, [], none)
  else
    let i := IndexByte data LF
    if i ≥ 0 then (i.toNat + 1, dropCR (data.take i.toNat), none)
    else if atEOF then (data.length, dropCR data, none)
    else (0, [], none)

end ShellPrinter

/-! ## The printer -/

/-- The struct `ShellPrinter`. -/
structure ShellPrinter where
  writer : ShellPrinter.Writer
  buffer : ShellPrinter.Buffer
  prefix_ : Option ShellPrinter.Bytes
  suffix : Option ShellPrinter.Bytes

namespace ShellPrinter

/-- How a method call on a printer ends: it returns a value and leaves the
printer in a state, or it panics, or its step budget ran out. -/
inductive Outcome (α : Type) where
  | returned (p : ShellPrinter) (v : α)
  | panicked (p : ShellPrinter) (msg : String)
  | outOfFuel

/-- `New(writer)`. -/
def New (writer : Writer) : ShellPrinter :=
  { writer := writer, buffer := ⟨[]⟩, prefix_ := none, suffix := none }

/-- `p.WithPrefix(prefix)`. -/
def WithPrefix (p : ShellPrinter) (pre : Option Bytes) : ShellPrinter :=
  { p with prefix_ := pre }

/-- `p.WithPrefixString(prefix)`. -/
def WithPrefixString (p : ShellPrinter) (pre : String) : ShellPrinter :=
  p.WithPrefix (some (bs pre))

/-- `p.WithSuffix(suffix)`. -/
def WithSuffix (p : ShellPrinter) (suf : Option Bytes) : ShellPrinter :=
  { p with suffix := suf }

/-- `p.WithSuffixString(suffix)`. -/
def WithSuffixString (p : ShellPrinter) (suf : String) : ShellPrinter :=
  p.WithSuffix (some (bs suf))

/-- The message of the `errors.Errorf` calls of the package. -/
def inconsistency (what lenName : String) (expected actual : Nat) : GoError :=
  .errorf ("inconsistency when " ++ what ++ ": " ++ lenName ++ " len = " ++ toString expected
    ++ ", actually written = " ++ toString actual)

/-- `p.writePrefix()`. -/
def writePrefix (p : ShellPrinter) : ShellPrinter × Option GoError :=
  if p.prefix_ ≠ none ∧ len p.prefix_ > 0 then
    let expectedBytesWritten := len p.prefix_
    let (w, r) := p.writer.Write (bytesOf p.prefix_)
    let p := { p with writer := w }
    match r.err with
    | some err => (p, some (.wrap err "failed to write prefix"))
    | none =>
      if expectedBytesWritten ≠ r.n then
        (p, some (inconsistency "writing prefix" "prefix" expectedBytesWritten r.n))
      else (p, none)
  else (p, none)

/-- `p.writeSuffix()`. -/
def writeSuffix (p : ShellPrinter) : ShellPrinter × Option GoError :=
  if p.suffix ≠ none ∧ len p.suffix > 0 then
    let expectedBytesWritten := len p.suffix
    let (w, r) := p.writer.Write (bytesOf p.suffix)
    let p := { p with writer := w }
    match r.err with
    | some err => (p, some (.wrap err "failed to write suffix"))
    | none =>
      if expectedBytesWritten ≠ r.n then
        (p, some (inconsistency "writing suffix" "suffix" expectedBytesWritten r.n))
      else (p, none)
  else (p, none)

/-- `p.flushBuffer()`. -/
def flushBuffer (p : ShellPrinter) : Outcome (Option GoError) :=
  if p.buffer.Len > 0 then
    let expectedBytesWritten := p.buffer.Len
    match p.buffer.WriteTo p.writer with
    | .panicked b w msg => .panicked { p with buffer := b, writer := w } msg
    | .returned b w actualBytesWritten err =>
      let p := { p with buffer := b, writer := w }
      match err with
      | some err => .returned p (some (.wrap err "failed to flush buffer"))
      | none =>
        if expectedBytesWritten ≠ actualBytesWritten then
          .returned p (some (inconsistency "flushing buffer" "buffer"
            expectedBytesWritten actualBytesWritten))
        else .returned { p with buffer := p.buffer.Reset } none
  else .returned p none

/-- The part of `Write` after its loop: the unterminated remainder goes to the
pending buffer. -/
def writeRemainder (p : ShellPrinter) (bytesWrittenSoFar : Nat) (dataRemainder : Bytes) :
    Outcome (Nat × Option GoError) :=
  if dataRemainder.length > 0 then
    let (b, bytesWrittenToBuffer, err) := p.buffer.Write dataRemainder
    let p := { p with buffer := b }
    match err with
    | some err => .returned p (bytesWrittenSoFar, some (.wrap err "failed to write to buffer"))
    | none =>
      if dataRemainder.length ≠ bytesWrittenToBuffer then
        .returned p (bytesWrittenSoFar, some (inconsistency "writing to buffer" "data"
          dataRemainder.length bytesWrittenToBuffer))
      else .returned p (bytesWrittenSoFar + dataRemainder.length, none)
  else .returned p (bytesWrittenSoFar, none)

/-- The `for` loop of `Write` followed by the rest of the function; `fuel`
bounds the number of iterations. -/
def writeLoop : Nat → ShellPrinter → Nat → Bytes → Outcome (Nat × Option GoError)
  | 0, _, _, _ => .outOfFuel
  | fuel + 1, p, bytesWrittenSoFar, dataRemainder =>
    match ScanLines dataRemainder false with
    | (_, _, some err) => .returned p (bytesWrittenSoFar, some (.wrap err "failed to scan lines"))
    | (afterNewLineIndex, dataBeforeNewLine, none) =>
      if afterNewLineIndex = 0 then writeRemainder p bytesWrittenSoFar dataRemainder
      else
        match writePrefix p with
        | (p, some err) => .returned p (bytesWrittenSoFar, some err)
        | (p, none) =>
          match flushBuffer p with
          | .outOfFuel => .outOfFuel
          | .panicked p msg => .panicked p msg
          | .returned p (some err) => .returned p (bytesWrittenSoFar, some err)
          | .returned p none =>
            let (w, r) := p.writer.Write dataBeforeNewLine
            let p := { p with writer := w }
            let dataBytesWritten := r.n
            match r.err with
            | some err => .returned p (bytesWrittenSoFar, some (.wrap err "failed to write data"))
            | none =>
              if dataBytesWritten ≠ dataBeforeNewLine.length then
                .returned p (bytesWrittenSoFar, some (inconsistency "writing data" "data"
                  dataBeforeNewLine.length dataBytesWritten))
              else
                let bytesWrittenSoFar := bytesWrittenSoFar + dataBytesWritten
                match writeSuffix p with
                | (p, some err) => .returned p (bytesWrittenSoFar, some err)
                | (p, none) =>
                  match slice dataRemainder dataBeforeNewLine.length afterNewLineIndex with
                  | none => .panicked p "slice bounds out of range"
                  | some newLineData =>
                    let (w, r) := p.writer.Write newLineData
                    let p := { p with writer := w }
                    let newLineBytesWritten := r.n
                    match r.err with
                    | some err =>
                      .returned p (bytesWrittenSoFar, some (.wrap err "failed to write new line"))
                    | none =>
                      if newLineBytesWritten ≠ newLineData.length then
                        .returned p (bytesWrittenSoFar, some (inconsistency "writing new line"
                          "new line" newLineData.length newLineBytesWritten))
                      else
                        let bytesWrittenSoFar := bytesWrittenSoFar + newLineBytesWritten
                        match slice dataRemainder afterNewLineIndex dataRemainder.length with
                        | none => .panicked p "slice bounds out of range"
                        | some dataRemainder => writeLoop fuel p bytesWrittenSoFar dataRemainder

/-- `p.Write(data)`. Every iteration of the loop consumes at least one byte
of `data`, so `len(data) + 1` iterations are enough (`writeLoop_fuel`). -/
def Write (p : ShellPrinter) (data : Bytes) : Outcome (Nat × Option GoError) :=
  writeLoop (data.length + 1) p 0 data

/-- `p.Close()`. -/
def Close (p : ShellPrinter) : Outcome (Option GoError) :=
  if p.buffer.Len > 0 then
    match writePrefix p with
    | (p, some err) => .returned p (some err)
    | (p, none) => flushBuffer p
  else .returned p none

end ShellPrinter

namespace ShellPrinter

/-! ## Vocabulary of the statements -/

/-- The sink after it has received `calls` more requests. -/
def Writer.record (w : Writer) (calls : List Bytes) : Writer :=
  { w with received := w.received ++ calls }

/-- The sink call made for an optional segment (the prefix or the suffix):
none when the segment is nil or empty. -/
def optCall (s : Option Bytes) : List Bytes := if len s > 0 then [bytesOf s] else []

/-- The sink call made to flush the pending buffer: none when it is empty. -/
def bufCall (b : Buffer) : List Bytes := if b.Len > 0 then [b.unread] else []

/-- A terminated line of the input: its body, and whether its terminator is
`\r\n` (otherwise it is `\n`). -/
structure Line where
  body : Bytes
  cr : Bool
  deriving DecidableEq

/-- The terminator segment of a line. -/
def Line.terminator (l : Line) : Bytes := if l.cr then [CR, LF] else [LF]

/-- The bytes of the input that make up a line. -/
def Line.bytes (l : Line) : Bytes := l.body ++ l.terminator

/-- The body holds no line feed, and the terminator is `\r\n` whenever a
carriage return stands right before the line feed. -/
def Line.WellFormed (l : Line) : Prop :=
  LF ∉ l.body ∧ (l.cr = false → l.body.getLast? ≠ some CR)

instance (l : Line) : Decidable l.WellFormed := by
  unfold Line.WellFormed; infer_instance

/-- The input made of the given lines, one after the other. -/
def linesBytes (ls : List Line) : Bytes := (ls.map Line.bytes).flatten

/-- The sink calls made for the lines `ls` when the pending buffer is `b`. -/
def linesCalls (pre suf : Option Bytes) : Buffer → List Line → List Bytes
  | _, [] => []
  | b, l :: ls =>
    optCall pre ++ bufCall b ++ [l.body] ++ optCall suf ++ [l.terminator]
      ++ linesCalls pre suf ⟨[]⟩ ls

/-- The bytes `P ++ B ++ l1 ++ S ++ t1 ++ P ++ l2 ++ S ++ t2 ++ ...`. -/
def renderLines (P S : Bytes) : Bytes → List Line → Bytes
  | _, [] => []
  | B, l :: ls => P ++ B ++ l.body ++ S ++ l.terminator ++ renderLines P S [] ls

/-- The pending buffer once the lines `ls` have been written: what it was
when there is no line, empty otherwise. -/
def pendingAfter (b : Buffer) (ls : List Line) : Bytes :=
  match ls with
  | [] => b.unread
  | _ :: _ => []

/-- The line that ends at a line feed preceded by the bytes `raw`. -/
def Line.ofRaw (raw : Bytes) : Line := ⟨dropCR raw, raw.getLast? = some CR⟩

/-- The program `Write(c1); ...; Write(cn); Close()`, which stops at the first
call that reports an error. -/
def writeAllThenClose (p : ShellPrinter) : List Bytes → Outcome (Option GoError)
  | [] => Close p
  | c :: cs =>
    match Write p c with
    | .returned p (_, none) => writeAllThenClose p cs
    | .returned p (_, some err) => .returned p (some err)
    | .panicked p msg => .panicked p msg
    | .outOfFuel => .outOfFuel

/-- The bytes the sink has received when the call has returned. -/
def Outcome.delivered? {α : Type} : Outcome α → Option Bytes
  | .returned p _ => some p.writer.delivered
  | _ => none

/-- The requests the sink has received when the call has ended (returned or
panicked). -/
def Outcome.received? {α : Type} : Outcome α → Option (List Bytes)
  | .returned p _ => some p.writer.received
  | .panicked p _ => some p.writer.received
  | .outOfFuel => none

/-- The value a call returned. -/
def Outcome.value? {α : Type} : Outcome α → Option α
  | .returned _ v => some v
  | _ => none

/-- The pending buffer when the call has returned. -/
def Outcome.buffer? {α : Type} : Outcome α → Option Bytes
  | .returned p _ => some p.buffer.unread
  | _ => none

/-- The message of the panic a call ended with. -/
def Outcome.panic? {α : Type} : Outcome α → Option String
  | .panicked _ msg => some msg
  | _ => none

end ShellPrinter

namespace ShellPrinter

/-! ## Vocabulary for runs on an arbitrary sink -/

/-- The five kinds of sink write of the package: the prefix, the pending
buffer, the body of a line, the suffix and the terminator. -/
inductive Step where
  | pre
  | flush
  | body
  | suf
  | newline
  deriving DecidableEq

/-- The sink answered the request for `data` with no error and with the count
`len(data)`. -/
def WriteResult.ok (r : WriteResult) (data : Bytes) : Prop :=
  r.err = none ∧ r.n = data.length

instance (r : WriteResult) (data : Bytes) : Decidable (r.ok data) := by
  unfold WriteResult.ok; infer_instance

/-- The first request of a run that the sink did not answer `ok`: the
requests accepted before it, its step and bytes, and the answer. -/
structure Failure where
  accepted : List (Step × Bytes)
  step : Step
  data : Bytes
  result : WriteResult
  deriving DecidableEq

/-- The requests are put to the sink in order; the first one that fails, if
there is one. -/
def firstFailure (w : Writer) : List (Step × Bytes) → Option Failure
  | [] => none
  | (s, d) :: rest =>
    if (w.behaviour w.received d).ok d then
      (firstFailure (w.record [d]) rest).map fun f => { f with accepted := (s, d) :: f.accepted }
    else some ⟨[], s, d, w.behaviour w.received d⟩

/-- The request made for an optional segment (the prefix or the suffix). -/
def optStep (s : Step) (x : Option Bytes) : List (Step × Bytes) :=
  if len x > 0 then [(s, bytesOf x)] else []

/-- The request made to flush the pending buffer. -/
def bufStep (b : Buffer) : List (Step × Bytes) :=
  if b.Len > 0 then [(.flush, b.unread)] else []

/-- The requests of one iteration of the loop of `Write`, for the line `l`
with the pending buffer `b`. -/
def lineSteps (pre suf : Option Bytes) (b : Buffer) (l : Line) : List (Step × Bytes) :=
  optStep .pre pre ++ bufStep b ++ [(.body, l.body)] ++ optStep .suf suf
    ++ [(.newline, l.terminator)]

/-- The requests of `Write` for the lines `ls` with the pending buffer `b`. -/
def linesSteps (pre suf : Option Bytes) : Buffer → List Line → List (Step × Bytes)
  | _, [] => []
  | b, l :: ls => lineSteps pre suf b l ++ linesSteps pre suf ⟨[]⟩ ls

/-- The requests of `Close` with the pending buffer `b`. -/
def closeSteps (pre : Option Bytes) (b : Buffer) : List (Step × Bytes) :=
  if b.Len > 0 then optStep .pre pre ++ [(.flush, b.unread)] else []

/-- The bytes of the requests. -/
def callsOf (steps : List (Step × Bytes)) : List Bytes := steps.map Prod.snd

/-- The input bytes a request stands for: those of a body or of a terminator
(prefix, suffix and pending-buffer bytes are not input of this call). -/
def counted : Step × Bytes → Nat
  | (.body, d) => d.length
  | (.newline, d) => d.length
  | _ => 0

/-- The total length of the bodies and terminators among the requests. -/
def countOf (steps : List (Step × Bytes)) : Nat := (steps.map counted).sum

/-- The label `errors.Wrap` gets at each step. -/
def stepLabel : Step → String
  | .pre => "failed to write prefix"
  | .flush => "failed to flush buffer"
  | .body => "failed to write data"
  | .suf => "failed to write suffix"
  | .newline => "failed to write new line"

/-- The error the package returns when the request `(s, d)` got the answer
`r`, which is not `ok`. -/
def failureError (s : Step) (d : Bytes) (r : WriteResult) : GoError :=
  match r.err with
  | some e => .wrap e (stepLabel s)
  | none =>
    match s with
    | .pre => inconsistency "writing prefix" "prefix" d.length r.n
    | .flush => .wrap .errShortWrite "failed to flush buffer"
    | .body => inconsistency "writing data" "data" d.length r.n
    | .suf => inconsistency "writing suffix" "suffix" d.length r.n
    | .newline => inconsistency "writing new line" "new line" d.length r.n

/-- The pending buffer after a failed run that started with the buffer `b`:
a failed flush has consumed the bytes the sink reported, an earlier flush has
emptied the buffer, otherwise it is untouched. -/
def bufferAfter (b : Buffer) (f : Failure) : Buffer :=
  if f.step = .flush then ⟨b.unread.drop f.result.n⟩
  else if f.accepted.any (fun x => x.1 = .flush) then ⟨[]⟩
  else b

/-- A failed flush whose reported count exceeds the request makes
`bytes.Buffer.WriteTo` panic. -/
def Failure.panics (f : Failure) : Prop := f.step = .flush ∧ f.result.n > f.data.length

instance (f : Failure) : Decidable f.panics := by
  unfold Failure.panics; infer_instance

/-- The sink after the requests of a failed run. -/
def Failure.writer (f : Failure) (w : Writer) : Writer :=
  w.record (callsOf f.accepted ++ [f.data])

/-- How `Write` ends when the run of its requests fails at `f`, `n` input
bytes having been counted before the run. -/
def failedWrite (p : ShellPrinter) (n : Nat) (f : Failure) : Outcome (Nat × Option GoError) :=
  if f.panics then
    .panicked { p with writer := f.writer p.writer } "bytes.Buffer.WriteTo: invalid Write count"
  else
    .returned { p with writer := f.writer p.writer, buffer := bufferAfter p.buffer f }
      (n + countOf f.accepted, some (failureError f.step f.data f.result))

/-- How `Close` ends when the run of its requests fails at `f`. -/
def failedClose (p : ShellPrinter) (f : Failure) : Outcome (Option GoError) :=
  if f.panics then
    .panicked { p with writer := f.writer p.writer } "bytes.Buffer.WriteTo: invalid Write count"
  else
    .returned { p with writer := f.writer p.writer, buffer := bufferAfter p.buffer f }
      (some (failureError f.step f.data f.result))

/-- Every request of `calls`, put to the sink in this order, is accepted in
full. -/
def Writer.allOk (w : Writer) : List Bytes → Prop
  | [] => True
  | d :: rest => (w.behaviour w.received d).ok d ∧ (w.record [d]).allOk rest

/-- The printer when the call has ended (returned or panicked). -/
def Outcome.state? {α : Type} : Outcome α → Option ShellPrinter
  | .returned p _ => some p
  | .panicked p _ => some p
  | .outOfFuel => none

/-- A call on the printer: `Write(data)` or `Close()`. -/
inductive Op where
  | write (data : Bytes)
  | close

/-- The printer after one call, whatever the call returned; a call that
panicked leaves the printer as it was at the panic. -/
def applyOp (p : ShellPrinter) : Op → ShellPrinter
  | .write data => ((Write p data).state?).getD p
  | .close => ((Close p).state?).getD p

/-- The printer after a sequence of calls. -/
def runOps (p : ShellPrinter) (ops : List Op) : ShellPrinter := ops.foldl applyOp p

end ShellPrinter

namespace ShellPrinter

/-! ## Lemmas on the scanner, the sink and the loop -/

theorem IndexByte_of_not_mem (s : Bytes) (c : Byte) (h : c ∉ s) : IndexByte s c = -1 := by
  induction s with
  | nil => rfl
  | cons b s ih =>
    have hb : b ≠ c := fun e => h (e ▸ List.mem_cons_self _ _)
    have hs : c ∉ s := fun m => h (List.mem_cons_of_mem _ m)
    simp [IndexByte, hb, ih hs]

theorem IndexByte_append_cons (l r : Bytes) (c : Byte) (h : c ∉ l) :
    IndexByte (l ++ c :: r) c = l.length := by
  induction l with
  | nil => simp [IndexByte]
  | cons b l ih =>
    have hb : b ≠ c := fun e => h (e ▸ List.mem_cons_self _ _)
    have hs : c ∉ l := fun m => h (List.mem_cons_of_mem _ m)
    have : (0:Int) ≤ (l.length : Int) := Int.ofNat_nonneg _
    simp [IndexByte, hb, ih hs, this]

theorem ScanLines_of_not_mem (data : Bytes) (h : LF ∉ data) :
    ScanLines data false = (0, [], none) := by
  simp [ScanLines, IndexByte_of_not_mem data LF h]

theorem ScanLines_append_cons (l r : Bytes) (h : LF ∉ l) :
    ScanLines (l ++ LF :: r) false = (l.length + 1, dropCR l, none) := by
  simp [ScanLines, IndexByte_append_cons l r LF h]

theorem dropCR_append_CR (b : Bytes) : dropCR (b ++ [CR]) = b := by
  simp [dropCR]

theorem dropCR_of_getLast (b : Bytes) (h : b.getLast? ≠ some CR) : dropCR b = b := by
  simp [dropCR, h]

theorem dropCR_eq (l : Bytes) :
    (l.getLast? = some CR ∧ l = dropCR l ++ [CR]) ∨ (l.getLast? ≠ some CR ∧ dropCR l = l) := by
  by_cases h : l.getLast? = some CR
  · left
    refine ⟨h, ?_⟩
    obtain ⟨l', rfl⟩ : ∃ l', l = l' ++ [CR] := by
      rcases List.eq_nil_or_concat l with rfl | ⟨l', a, rfl⟩
      · simp at h
      · simp at h; exact ⟨l', by simp [h]⟩
    rw [dropCR_append_CR]
  · right
    exact ⟨h, dropCR_of_getLast l h⟩


theorem Writer.record_nil (w : Writer) : w.record [] = w := by
  cases w; simp [Writer.record]

theorem Writer.record_record (w : Writer) (a b : List Bytes) :
    (w.record a).record b = w.record (a ++ b) := by
  simp [Writer.record, List.append_assoc]

theorem Writer.acceptsAll_record (w : Writer) (a : List Bytes) (h : w.AcceptsAll) :
    (w.record a).AcceptsAll := h

theorem Writer.delivered_record (w : Writer) (a : List Bytes) :
    (w.record a).delivered = w.delivered ++ a.flatten := by
  simp [Writer.record, Writer.delivered]

theorem Writer.Write_of_acceptsAll (w : Writer) (data : Bytes) (h : w.AcceptsAll) :
    w.Write data = (w.record [data], ⟨data.length, none⟩) := by
  simp [Writer.Write, Writer.record, h w.received data]

theorem flatten_optCall (s : Option Bytes) : (optCall s).flatten = bytesOf s := by
  unfold optCall
  split
  · simp
  · rename_i h
    cases s with
    | none => rfl
    | some v =>
      have : v = [] := by
        simpa [len] using h
      simp [this, bytesOf]

theorem flatten_bufCall (b : Buffer) : (bufCall b).flatten = b.unread := by
  unfold bufCall
  split
  · simp
  · rename_i h
    have : b.unread = [] := by simpa [Buffer.Len] using h
    simp [this]

theorem writePrefix_of_acceptsAll (p : ShellPrinter) (h : p.writer.AcceptsAll) :
    writePrefix p = ({ p with writer := p.writer.record (optCall p.prefix_) }, none) := by
  unfold writePrefix optCall
  by_cases hl : len p.prefix_ > 0
  · have hn : p.prefix_ ≠ none := by
      intro e; rw [e] at hl; simp [len] at hl
    have hl2 : 0 < List.length (p.prefix_.getD []) := hl
    simp [hn, hl2, Writer.Write_of_acceptsAll _ _ h, len, bytesOf]
  · simp [hl, Writer.record_nil]

theorem writeSuffix_of_acceptsAll (p : ShellPrinter) (h : p.writer.AcceptsAll) :
    writeSuffix p = ({ p with writer := p.writer.record (optCall p.suffix) }, none) := by
  unfold writeSuffix optCall
  by_cases hl : len p.suffix > 0
  · have hn : p.suffix ≠ none := by
      intro e; rw [e] at hl; simp [len] at hl
    have hl2 : 0 < List.length (p.suffix.getD []) := hl
    simp [hn, hl2, Writer.Write_of_acceptsAll _ _ h, len, bytesOf]
  · simp [hl, Writer.record_nil]

theorem flushBuffer_of_acceptsAll (p : ShellPrinter) (h : p.writer.AcceptsAll) :
    flushBuffer p
      = .returned { p with buffer := ⟨[]⟩, writer := p.writer.record (bufCall p.buffer) } none := by
  unfold flushBuffer bufCall
  by_cases hl : p.buffer.Len > 0
  · have hl2 : 0 < List.length p.buffer.unread := hl
    simp [hl2, Buffer.WriteTo, Writer.Write_of_acceptsAll _ _ h, Buffer.Len, Buffer.Reset]
  · have : p.buffer = ⟨[]⟩ := by
      cases hb : p.buffer with
      | mk u =>
        rw [hb] at hl
        simp [Buffer.Len] at hl
        simp [hl]
    simp [hl, Writer.record_nil]
    cases p
    simp_all


theorem length_dropCR_le (l : Bytes) : (dropCR l).length ≤ l.length := by
  unfold dropCR
  split <;> simp

theorem slice_terminator (l r : Bytes) :
    slice (l ++ LF :: r) (dropCR l).length (l.length + 1)
      = some (l.drop (dropCR l).length ++ [LF]) := by
  have h := length_dropCR_le l
  have h1 : (l ++ LF :: r).take (l.length + 1) = l ++ [LF] := by
    have : l ++ LF :: r = (l ++ [LF]) ++ r := by simp
    rw [this, List.take_left' (by simp)]
  unfold slice
  rw [if_pos ⟨by omega, by simp⟩, h1, List.drop_append_of_le_length h]

theorem slice_rest (l r : Bytes) :
    slice (l ++ LF :: r) (l.length + 1) (l ++ LF :: r).length = some r := by
  have h1 : (l ++ LF :: r).drop (l.length + 1) = r := by
    have : l ++ LF :: r = (l ++ [LF]) ++ r := by simp
    rw [this, List.drop_left' (by simp)]
  unfold slice
  rw [if_pos ⟨by simp, le_refl _⟩, List.take_length, h1]

theorem writeLoop_of_not_mem (fuel : Nat) (p : ShellPrinter) (n : Nat) (r : Bytes)
    (h : LF ∉ r) :
    writeLoop (fuel + 1) p n r
      = .returned { p with buffer := ⟨p.buffer.unread ++ r⟩ } (n + r.length, none) := by
  unfold writeLoop
  rw [ScanLines_of_not_mem r h]
  cases r with
  | nil => simp [writeRemainder]
  | cons a r => simp [writeRemainder, Buffer.Write]

/-- One iteration of the loop of `Write` on a sink that accepts every write. -/
theorem writeLoop_step (fuel : Nat) (p : ShellPrinter) (n : Nat) (l r : Bytes)
    (hw : p.writer.AcceptsAll) (h : LF ∉ l) :
    writeLoop (fuel + 1) p n (l ++ LF :: r)
      = writeLoop fuel
          { p with
            buffer := ⟨[]⟩
            writer := p.writer.record (optCall p.prefix_ ++ bufCall p.buffer ++ [dropCR l]
              ++ optCall p.suffix ++ [l.drop (dropCR l).length ++ [LF]]) }
          (n + (l.length + 1)) r := by
  have hlen := length_dropCR_le l
  have hsum : n + (dropCR l).length + (l.length - (dropCR l).length + 1) = n + (l.length + 1) := by
    omega
  conv_lhs => unfold writeLoop
  rw [ScanLines_append_cons l r h]
  simp only [Nat.succ_ne_zero, if_false, Nat.add_one_ne_zero]
  rw [writePrefix_of_acceptsAll p hw]
  simp only
  rw [flushBuffer_of_acceptsAll { p with writer := p.writer.record (optCall p.prefix_) } hw]
  simp only [Writer.Write, Writer.record, hw _ _, ne_eq, not_true_eq_false, if_false]
  rw [writeSuffix_of_acceptsAll
    { p with
      buffer := ⟨[]⟩
      writer := ⟨p.writer.behaviour,
        p.writer.received ++ optCall p.prefix_ ++ bufCall p.buffer ++ [dropCR l]⟩ } hw]
  simp only [slice_terminator, slice_rest]
  simp only [Writer.Write, Writer.record, hw _ _, ne_eq,
    not_true_eq_false, if_false, List.length_append, List.length_drop, List.length_singleton,
    hsum, List.append_assoc]


/-- One iteration of the loop of `Write` on a well-formed line. -/
theorem writeLoop_line (fuel : Nat) (p : ShellPrinter) (n : Nat) (l : Line) (rest : Bytes)
    (hw : p.writer.AcceptsAll) (hl : l.WellFormed) :
    writeLoop (fuel + 1) p n (l.bytes ++ rest)
      = writeLoop fuel
          { p with
            buffer := ⟨[]⟩
            writer := p.writer.record (optCall p.prefix_ ++ bufCall p.buffer ++ [l.body]
              ++ optCall p.suffix ++ [l.terminator]) }
          (n + l.bytes.length) rest := by
  obtain ⟨body, cr⟩ := l
  obtain ⟨hLF, hCR⟩ := hl
  cases cr with
  | true =>
    have hraw : LF ∉ body ++ [CR] := by
      simp only [List.mem_append, List.mem_singleton, not_or]
      exact ⟨hLF, by decide⟩
    have := writeLoop_step fuel p n (body ++ [CR]) rest hw hraw
    simp only [dropCR_append_CR, List.drop_left, List.length_append, List.length_singleton,
      List.append_assoc, List.singleton_append] at this
    simpa [Line.bytes, Line.terminator, List.append_assoc] using this
  | false =>
    have hd : dropCR body = body := dropCR_of_getLast body (hCR rfl)
    have := writeLoop_step fuel p n body rest hw hLF
    simp only [hd, List.drop_length, List.nil_append] at this
    simpa [Line.bytes, Line.terminator, List.append_assoc] using this

theorem length_linesBytes_ge (ls : List Line) : ls.length ≤ (linesBytes ls).length := by
  induction ls with
  | nil => simp
  | cons l ls ih =>
    have : 1 ≤ l.bytes.length := by
      unfold Line.bytes Line.terminator
      split <;> simp
    simp only [linesBytes, List.map_cons, List.flatten_cons, List.length_cons,
      List.length_append] at ih ⊢
    omega

/-- The loop of `Write` on an input made of well-formed lines and an
unterminated remainder, on a sink that accepts every write. -/
theorem writeLoop_lines (ls : List Line) :
    ∀ (fuel : Nat) (p : ShellPrinter) (n : Nat) (r : Bytes), p.writer.AcceptsAll →
      (∀ l ∈ ls, l.WellFormed) → LF ∉ r → ls.length < fuel →
      writeLoop fuel p n (linesBytes ls ++ r)
        = .returned
            { p with
              buffer := ⟨pendingAfter p.buffer ls ++ r⟩
              writer := p.writer.record (linesCalls p.prefix_ p.suffix p.buffer ls) }
            (n + (linesBytes ls ++ r).length, none) := by
  induction ls with
  | nil =>
    intro fuel p n r _ _ hr hf
    obtain ⟨fuel, rfl⟩ : ∃ k, fuel = k + 1 := ⟨fuel - 1, by simp at hf; omega⟩
    simp [linesBytes, writeLoop_of_not_mem fuel p n r hr, pendingAfter, linesCalls,
      Writer.record_nil]
  | cons l ls ih =>
    intro fuel p n r hw hwf hr hf
    obtain ⟨fuel, rfl⟩ : ∃ k, fuel = k + 1 := ⟨fuel - 1, by simp at hf; omega⟩
    have hl : l.WellFormed := hwf l (List.mem_cons_self _ _)
    have hls : ∀ x ∈ ls, x.WellFormed := fun x hx => hwf x (List.mem_cons_of_mem _ hx)
    have hbytes : linesBytes (l :: ls) ++ r = l.bytes ++ (linesBytes ls ++ r) := by
      simp [linesBytes, List.append_assoc]
    rw [hbytes, writeLoop_line fuel p n l _ hw hl,
      ih fuel
        { p with
          buffer := ⟨[]⟩
          writer := p.writer.record (optCall p.prefix_ ++ bufCall p.buffer ++ [l.body]
            ++ optCall p.suffix ++ [l.terminator]) }
        _ r hw hls hr (by simpa using hf)]
    simp only [Writer.record_record, linesCalls, pendingAfter, List.length_append,
      List.append_assoc, Nat.add_assoc]
    cases ls <;> simp [pendingAfter]


theorem flatten_linesCalls (pre suf : Option Bytes) (ls : List Line) :
    ∀ b : Buffer, (linesCalls pre suf b ls).flatten
      = renderLines (bytesOf pre) (bytesOf suf) b.unread ls := by
  induction ls with
  | nil => intro b; rfl
  | cons l ls ih =>
    intro b
    simp [linesCalls, renderLines, flatten_optCall, flatten_bufCall, ih, List.append_assoc]

theorem linesBytes_append (xs ys : List Line) :
    linesBytes (xs ++ ys) = linesBytes xs ++ linesBytes ys := by
  simp [linesBytes]

theorem Line.wellFormed_ofRaw (raw : Bytes) (h : LF ∉ raw) : (Line.ofRaw raw).WellFormed := by
  rcases dropCR_eq raw with ⟨h1, h2⟩ | ⟨h1, h2⟩
  · refine ⟨?_, ?_⟩
    · intro hm
      apply h
      rw [h2]
      exact List.mem_append_left _ hm
    · simp [Line.ofRaw, h1]
  · refine ⟨?_, ?_⟩
    · simpa [Line.ofRaw, h2] using h
    · intro _
      simpa [Line.ofRaw, h2] using h1

theorem Line.bytes_ofRaw (raw : Bytes) : (Line.ofRaw raw).bytes = raw ++ [LF] := by
  rcases dropCR_eq raw with ⟨h1, h2⟩ | ⟨h1, h2⟩
  · have : (Line.ofRaw raw).bytes = dropCR raw ++ [CR, LF] := by
      simp [Line.ofRaw, Line.bytes, Line.terminator, h1]
    rw [this]
    conv_rhs => rw [h2]
    simp
  · simp [Line.ofRaw, Line.bytes, Line.terminator, h1, h2]

/-- Every input is a sequence of well-formed lines followed by a remainder
without line feed. -/
theorem exists_lines : ∀ (n : Nat) (data : Bytes), data.length = n →
    ∃ (ls : List Line) (r : Bytes),
      data = linesBytes ls ++ r ∧ (∀ l ∈ ls, l.WellFormed) ∧ LF ∉ r := by
  intro n
  induction n using Nat.strong_induction_on with
  | _ n ih =>
    intro data hn
    by_cases hm : LF ∈ data
    · obtain ⟨raw, rest, hd, hraw⟩ := List.eq_append_cons_of_mem hm
      have hlen : rest.length < n := by
        rw [← hn, hd]; simp; omega
      obtain ⟨ls, r, h1, h2, h3⟩ := ih rest.length hlen rest rfl
      refine ⟨Line.ofRaw raw :: ls, r, ?_, ?_, h3⟩
      · rw [hd]
        conv_lhs => rw [h1]
        simp [linesBytes, Line.bytes_ofRaw]
      · intro l hl
        rcases List.mem_cons.mp hl with rfl | hl
        · exact Line.wellFormed_ofRaw raw hraw
        · exact h2 l hl
    · exact ⟨[], data, by simp [linesBytes], by simp, hm⟩

/-- The result of `Write` on a sink that accepts every write, for an input
given as lines and a remainder. -/
theorem Write_of_lines (p : ShellPrinter) (ls : List Line) (r : Bytes)
    (hw : p.writer.AcceptsAll) (hwf : ∀ l ∈ ls, l.WellFormed) (hr : LF ∉ r) :
    Write p (linesBytes ls ++ r)
      = .returned
          { p with
            buffer := ⟨pendingAfter p.buffer ls ++ r⟩
            writer := p.writer.record (linesCalls p.prefix_ p.suffix p.buffer ls) }
          ((linesBytes ls ++ r).length, none) := by
  have hf : ls.length < (linesBytes ls ++ r).length + 1 := by
    have := length_linesBytes_ge ls
    simp only [List.length_append]
    omega
  have := writeLoop_lines ls _ p 0 r hw hwf hr hf
  simpa [Write] using this


theorem bytesOf_of_len_eq_zero (s : Option Bytes) (h : len s = 0) : bytesOf s = [] := by
  unfold len at h
  exact List.length_eq_zero.mp h

theorem renderLines_nil_append_pending (ls : List Line) :
    ∀ b : Buffer, renderLines [] [] b.unread ls ++ pendingAfter b ls = b.unread ++ linesBytes ls := by
  induction ls with
  | nil => intro b; simp [renderLines, pendingAfter, linesBytes]
  | cons l ls ih =>
    intro b
    have hp : pendingAfter ⟨[]⟩ ls = [] := by cases ls <;> rfl
    have h : renderLines [] [] [] ls = linesBytes ls := by
      have := ih ⟨[]⟩
      rwa [hp, List.append_nil, List.nil_append] at this
    rw [renderLines, h]
    simp [pendingAfter, linesBytes, Line.bytes, List.append_assoc]

/-- Without prefix and suffix, on a sink that accepts every write, `Write`
moves bytes from the input to the pending buffer and the sink without changing
them. -/
theorem Write_transparent (p : ShellPrinter) (data : Bytes) (hw : p.writer.AcceptsAll)
    (hP : len p.prefix_ = 0) (hS : len p.suffix = 0) :
    ∃ q : ShellPrinter,
      Write p data = .returned q (data.length, none) ∧
      q.writer.AcceptsAll ∧ q.prefix_ = p.prefix_ ∧ q.suffix = p.suffix ∧
      q.writer.delivered ++ q.buffer.unread
        = p.writer.delivered ++ p.buffer.unread ++ data := by
  obtain ⟨ls, r, hd, hwf, hr⟩ := exists_lines data.length data rfl
  rw [hd]
  refine ⟨_, Write_of_lines p ls r hw hwf hr, hw, rfl, rfl, ?_⟩
  have h := renderLines_nil_append_pending ls p.buffer
  simp only [Writer.delivered_record, flatten_linesCalls, bytesOf_of_len_eq_zero _ hP,
    bytesOf_of_len_eq_zero _ hS, List.append_assoc]
  rw [← List.append_assoc (renderLines [] [] p.buffer.unread ls), h]
  simp [List.append_assoc]

/-- On a sink that accepts every write, `Close` hands the pending buffer to
the sink after the prefix and empties it. -/
theorem Close_of_acceptsAll (p : ShellPrinter) (hw : p.writer.AcceptsAll) :
    ∃ q : ShellPrinter,
      Close p = .returned q none ∧ q.buffer.unread = [] ∧
      q.writer.delivered
        = p.writer.delivered
          ++ (if p.buffer.unread = [] then [] else bytesOf p.prefix_ ++ p.buffer.unread) := by
  by_cases hB : p.buffer.unread = []
  · refine ⟨p, ?_, hB, by simp [hB]⟩
    unfold Close Buffer.Len
    simp [hB]
  · have hlen : p.buffer.Len > 0 := by
      unfold Buffer.Len
      exact List.length_pos.mpr hB
    refine ⟨{ p with
              buffer := ⟨[]⟩
              writer := p.writer.record (optCall p.prefix_ ++ bufCall p.buffer) }, ?_, rfl, ?_⟩
    · unfold Close
      rw [if_pos hlen, writePrefix_of_acceptsAll p hw]
      simp only
      rw [flushBuffer_of_acceptsAll { p with writer := p.writer.record (optCall p.prefix_) } hw]
      simp only [Writer.record_record]
    · simp [Writer.delivered_record, flatten_optCall, flatten_bufCall, hB]


theorem flushBuffer_ne_outOfFuel (p : ShellPrinter) : flushBuffer p ≠ .outOfFuel := by
  unfold flushBuffer
  dsimp only
  repeat' split
  all_goals simp

theorem writeRemainder_ne_outOfFuel (p : ShellPrinter) (n : Nat) (r : Bytes) :
    writeRemainder p n r ≠ .outOfFuel := by
  unfold writeRemainder
  split
  · simp [Buffer.Write]
  · simp

theorem length_of_slice_rest (s t : Bytes) (a : Nat)
    (h : slice s a s.length = some t) (ha : a ≠ 0) : t.length < s.length := by
  unfold slice at h
  split at h
  · rename_i hc
    cases h
    simp only [List.take_length, List.length_drop]
    omega
  · cases h

/-- The step budget `len(data) + 1` is never exhausted: every iteration of the
loop of `Write` consumes at least one byte. -/
theorem writeLoop_fuel (fuel : Nat) :
    ∀ (p : ShellPrinter) (n : Nat) (r : Bytes), r.length < fuel →
      writeLoop fuel p n r ≠ .outOfFuel := by
  induction fuel with
  | zero => intro p n r h; omega
  | succ fuel ih =>
    intro p n r h
    unfold writeLoop
    dsimp only
    repeat' split
    all_goals try simp
    · exact writeRemainder_ne_outOfFuel _ _ _
    · rename_i hf
      exact absurd hf (flushBuffer_ne_outOfFuel _)
    · have hlt := length_of_slice_rest r _ _ (by assumption) (by assumption)
      exact ih _ _ _ (by omega)

theorem Write_ne_outOfFuel (p : ShellPrinter) (data : Bytes) : Write p data ≠ .outOfFuel :=
  writeLoop_fuel _ p 0 data (Nat.lt_succ_self _)

/-! ## Lemmas on runs on an arbitrary sink -/

theorem firstFailure_cons_ok {β : Type} (w : Writer) (s : Step) (d : Bytes)
    (rest : List (Step × Bytes)) (a : β) (F : Failure → β)
    (h : (w.behaviour w.received d).ok d) :
    (firstFailure w ((s, d) :: rest)).elim a F
      = (firstFailure (w.record [d]) rest).elim a
          (fun f => F { f with accepted := (s, d) :: f.accepted }) := by
  simp only [firstFailure, h, if_true]
  cases firstFailure (w.record [d]) rest <;> rfl

theorem firstFailure_cons_not_ok {β : Type} (w : Writer) (s : Step) (d : Bytes)
    (rest : List (Step × Bytes)) (a : β) (F : Failure → β)
    (h : ¬(w.behaviour w.received d).ok d) :
    (firstFailure w ((s, d) :: rest)).elim a F = F ⟨[], s, d, w.behaviour w.received d⟩ := by
  simp only [firstFailure, h, if_false]
  rfl

theorem optStep_of_pos (s : Step) (x : Option Bytes) (h : len x > 0) :
    optStep s x = [(s, bytesOf x)] := by
  simp [optStep, h]

theorem optStep_of_not_pos (s : Step) (x : Option Bytes) (h : ¬len x > 0) :
    optStep s x = [] := by
  simp [optStep, h]

theorem bufStep_of_pos (b : Buffer) (h : b.Len > 0) : bufStep b = [(.flush, b.unread)] := by
  simp [bufStep, h]

theorem bufStep_of_not_pos (b : Buffer) (h : ¬b.Len > 0) : bufStep b = [] := by
  simp [bufStep, h]

theorem Buffer.eq_empty_of_not_pos (b : Buffer) (h : ¬b.Len > 0) : b = ⟨[]⟩ := by
  cases b with
  | mk u =>
    simp only [Buffer.Len, gt_iff_lt, List.length_pos, ne_eq, not_not] at h
    rw [h]

theorem writePrefix_of_not_pos (p : ShellPrinter) (h : ¬len p.prefix_ > 0) :
    writePrefix p = (p, none) := by
  unfold writePrefix
  rw [if_neg (fun hc => h hc.2)]

theorem writePrefix_of_ok (p : ShellPrinter) (h : len p.prefix_ > 0)
    (hok : (p.writer.behaviour p.writer.received (bytesOf p.prefix_)).ok (bytesOf p.prefix_)) :
    writePrefix p = ({ p with writer := p.writer.record [bytesOf p.prefix_] }, none) := by
  have hn : p.prefix_ ≠ none := by
    intro e; rw [e] at h; simp [len] at h
  have hlen : len p.prefix_ = (bytesOf p.prefix_).length := rfl
  unfold writePrefix
  rw [if_pos ⟨hn, h⟩]
  simp only [Writer.Write, hok.1, hlen, hok.2, ne_eq, not_true_eq_false, if_false]
  rfl

theorem writePrefix_of_not_ok (p : ShellPrinter) (h : len p.prefix_ > 0)
    (hok : ¬(p.writer.behaviour p.writer.received (bytesOf p.prefix_)).ok (bytesOf p.prefix_)) :
    writePrefix p
      = ({ p with writer := p.writer.record [bytesOf p.prefix_] },
          some (failureError .pre (bytesOf p.prefix_)
            (p.writer.behaviour p.writer.received (bytesOf p.prefix_)))) := by
  have hn : p.prefix_ ≠ none := by
    intro e; rw [e] at h; simp [len] at h
  have hlen : len p.prefix_ = (bytesOf p.prefix_).length := rfl
  unfold writePrefix
  rw [if_pos ⟨hn, h⟩]
  unfold WriteResult.ok at hok
  simp only [Writer.Write, hlen, failureError]
  cases he : (p.writer.behaviour p.writer.received (bytesOf p.prefix_)).err with
  | some e => rfl
  | none =>
    have hne : (bytesOf p.prefix_).length
        ≠ (p.writer.behaviour p.writer.received (bytesOf p.prefix_)).n :=
      fun e => hok ⟨he, e.symm⟩
    simp only [hne, ne_eq, not_false_eq_true, if_true]
    rfl

theorem writeSuffix_of_not_pos (p : ShellPrinter) (h : ¬len p.suffix > 0) :
    writeSuffix p = (p, none) := by
  unfold writeSuffix
  rw [if_neg (fun hc => h hc.2)]

theorem writeSuffix_of_ok (p : ShellPrinter) (h : len p.suffix > 0)
    (hok : (p.writer.behaviour p.writer.received (bytesOf p.suffix)).ok (bytesOf p.suffix)) :
    writeSuffix p = ({ p with writer := p.writer.record [bytesOf p.suffix] }, none) := by
  have hn : p.suffix ≠ none := by
    intro e; rw [e] at h; simp [len] at h
  have hlen : len p.suffix = (bytesOf p.suffix).length := rfl
  unfold writeSuffix
  rw [if_pos ⟨hn, h⟩]
  simp only [Writer.Write, hok.1, hlen, hok.2, ne_eq, not_true_eq_false, if_false]
  rfl

theorem writeSuffix_of_not_ok (p : ShellPrinter) (h : len p.suffix > 0)
    (hok : ¬(p.writer.behaviour p.writer.received (bytesOf p.suffix)).ok (bytesOf p.suffix)) :
    writeSuffix p
      = ({ p with writer := p.writer.record [bytesOf p.suffix] },
          some (failureError .suf (bytesOf p.suffix)
            (p.writer.behaviour p.writer.received (bytesOf p.suffix)))) := by
  have hn : p.suffix ≠ none := by
    intro e; rw [e] at h; simp [len] at h
  have hlen : len p.suffix = (bytesOf p.suffix).length := rfl
  unfold writeSuffix
  rw [if_pos ⟨hn, h⟩]
  unfold WriteResult.ok at hok
  simp only [Writer.Write, hlen, failureError]
  cases he : (p.writer.behaviour p.writer.received (bytesOf p.suffix)).err with
  | some e => rfl
  | none =>
    have hne : (bytesOf p.suffix).length
        ≠ (p.writer.behaviour p.writer.received (bytesOf p.suffix)).n :=
      fun e => hok ⟨he, e.symm⟩
    simp only [hne, ne_eq, not_false_eq_true, if_true]
    rfl

theorem flushBuffer_of_not_pos (p : ShellPrinter) (h : ¬p.buffer.Len > 0) :
    flushBuffer p = .returned p none := by
  unfold flushBuffer
  rw [if_neg h]

theorem flushBuffer_of_ok (p : ShellPrinter) (h : p.buffer.Len > 0)
    (hok : (p.writer.behaviour p.writer.received p.buffer.unread).ok p.buffer.unread) :
    flushBuffer p
      = .returned { p with buffer := ⟨[]⟩, writer := p.writer.record [p.buffer.unread] } none := by
  have h2 : 0 < List.length p.buffer.unread := h
  unfold flushBuffer
  rw [if_pos h]
  simp [Buffer.WriteTo, Writer.Write, Buffer.Len, Buffer.Reset, h2, hok.1, hok.2, Writer.record]

theorem flushBuffer_of_over (p : ShellPrinter) (h : p.buffer.Len > 0)
    (hov : (p.writer.behaviour p.writer.received p.buffer.unread).n > p.buffer.unread.length) :
    flushBuffer p
      = .panicked { p with writer := p.writer.record [p.buffer.unread] }
          "bytes.Buffer.WriteTo: invalid Write count" := by
  have h2 : 0 < List.length p.buffer.unread := h
  unfold flushBuffer
  rw [if_pos h]
  simp [Buffer.WriteTo, Writer.Write, Buffer.Len, h2, hov, Writer.record]

theorem flushBuffer_of_not_ok (p : ShellPrinter) (h : p.buffer.Len > 0)
    (hok : ¬(p.writer.behaviour p.writer.received p.buffer.unread).ok p.buffer.unread)
    (hov : ¬(p.writer.behaviour p.writer.received p.buffer.unread).n > p.buffer.unread.length) :
    flushBuffer p
      = .returned
          { p with
            buffer := ⟨p.buffer.unread.drop
              (p.writer.behaviour p.writer.received p.buffer.unread).n⟩
            writer := p.writer.record [p.buffer.unread] }
          (some (failureError .flush p.buffer.unread
            (p.writer.behaviour p.writer.received p.buffer.unread))) := by
  have h2 : 0 < List.length p.buffer.unread := h
  unfold WriteResult.ok at hok
  unfold flushBuffer
  rw [if_pos h]
  cases he : (p.writer.behaviour p.writer.received p.buffer.unread).err with
  | some e =>
    simp [Buffer.WriteTo, Writer.Write, Buffer.Len, h2, hov, he, Writer.record, failureError,
      stepLabel]
  | none =>
    have hne : ¬(p.writer.behaviour p.writer.received p.buffer.unread).n
        = p.buffer.unread.length := fun e => hok ⟨he, e⟩
    simp [Buffer.WriteTo, Writer.Write, Buffer.Len, h2, hov, he, hne, Writer.record,
      failureError]

theorem firstFailure_append {β : Type} (xs ys : List (Step × Bytes)) :
    ∀ (w : Writer) (a : β) (F : Failure → β),
      (firstFailure w (xs ++ ys)).elim a F
        = (firstFailure w xs).elim
            ((firstFailure (w.record (callsOf xs)) ys).elim a
              (fun f => F { f with accepted := xs ++ f.accepted }))
            F := by
  induction xs with
  | nil =>
    intro w a F
    simp [firstFailure, callsOf, Writer.record_nil]
  | cons x xs ih =>
    intro w a F
    obtain ⟨s, d⟩ := x
    by_cases hok : (w.behaviour w.received d).ok d
    · rw [List.cons_append, firstFailure_cons_ok _ _ _ _ _ _ hok,
        firstFailure_cons_ok _ _ _ _ _ _ hok, ih]
      simp [callsOf, Writer.record_record]
    · rw [List.cons_append, firstFailure_cons_not_ok _ _ _ _ _ _ hok,
        firstFailure_cons_not_ok _ _ _ _ _ _ hok]

theorem firstFailure_optStep (w : Writer) (s : Step) (x : Option Bytes) :
    firstFailure w (optStep s x) = none ∨
    (len x > 0 ∧ ¬(w.behaviour w.received (bytesOf x)).ok (bytesOf x) ∧
      firstFailure w (optStep s x)
        = some ⟨[], s, bytesOf x, w.behaviour w.received (bytesOf x)⟩) := by
  by_cases h : len x > 0
  · by_cases hok : (w.behaviour w.received (bytesOf x)).ok (bytesOf x)
    · left
      simp [optStep, h, firstFailure, hok]
    · right
      exact ⟨h, hok, by simp [optStep, h, firstFailure, hok]⟩
  · left
    simp [optStep, h, firstFailure]

theorem writePrefix_cases (p : ShellPrinter) :
    (firstFailure p.writer (optStep .pre p.prefix_) = none ∧
      writePrefix p
        = ({ p with writer := p.writer.record (callsOf (optStep .pre p.prefix_)) }, none)) ∨
    (firstFailure p.writer (optStep .pre p.prefix_)
        = some ⟨[], .pre, bytesOf p.prefix_,
            p.writer.behaviour p.writer.received (bytesOf p.prefix_)⟩ ∧
      writePrefix p
        = ({ p with writer := p.writer.record [bytesOf p.prefix_] },
            some (failureError .pre (bytesOf p.prefix_)
              (p.writer.behaviour p.writer.received (bytesOf p.prefix_))))) := by
  by_cases h : len p.prefix_ > 0
  · by_cases hok : (p.writer.behaviour p.writer.received (bytesOf p.prefix_)).ok
        (bytesOf p.prefix_)
    · left
      refine ⟨by simp [optStep, h, firstFailure, hok], ?_⟩
      rw [writePrefix_of_ok p h hok, optStep_of_pos _ _ h]
      rfl
    · right
      exact ⟨by simp [optStep, h, firstFailure, hok], writePrefix_of_not_ok p h hok⟩
  · left
    refine ⟨by simp [optStep, h, firstFailure], ?_⟩
    rw [writePrefix_of_not_pos p h, optStep_of_not_pos _ _ h]
    simp [callsOf, Writer.record_nil]

theorem writeSuffix_cases (p : ShellPrinter) :
    (firstFailure p.writer (optStep .suf p.suffix) = none ∧
      writeSuffix p
        = ({ p with writer := p.writer.record (callsOf (optStep .suf p.suffix)) }, none)) ∨
    (firstFailure p.writer (optStep .suf p.suffix)
        = some ⟨[], .suf, bytesOf p.suffix,
            p.writer.behaviour p.writer.received (bytesOf p.suffix)⟩ ∧
      writeSuffix p
        = ({ p with writer := p.writer.record [bytesOf p.suffix] },
            some (failureError .suf (bytesOf p.suffix)
              (p.writer.behaviour p.writer.received (bytesOf p.suffix))))) := by
  by_cases h : len p.suffix > 0
  · by_cases hok : (p.writer.behaviour p.writer.received (bytesOf p.suffix)).ok
        (bytesOf p.suffix)
    · left
      refine ⟨by simp [optStep, h, firstFailure, hok], ?_⟩
      rw [writeSuffix_of_ok p h hok, optStep_of_pos _ _ h]
      rfl
    · right
      exact ⟨by simp [optStep, h, firstFailure, hok], writeSuffix_of_not_ok p h hok⟩
  · left
    refine ⟨by simp [optStep, h, firstFailure], ?_⟩
    rw [writeSuffix_of_not_pos p h, optStep_of_not_pos _ _ h]
    simp [callsOf, Writer.record_nil]

theorem flushBuffer_cases (p : ShellPrinter) :
    (firstFailure p.writer (bufStep p.buffer) = none ∧
      flushBuffer p
        = .returned
            { p with buffer := ⟨[]⟩, writer := p.writer.record (callsOf (bufStep p.buffer)) }
            none) ∨
    (firstFailure p.writer (bufStep p.buffer)
        = some ⟨[], .flush, p.buffer.unread,
            p.writer.behaviour p.writer.received p.buffer.unread⟩ ∧
      ¬(p.writer.behaviour p.writer.received p.buffer.unread).n > p.buffer.unread.length ∧
      flushBuffer p
        = .returned
            { p with
              buffer := ⟨p.buffer.unread.drop
                (p.writer.behaviour p.writer.received p.buffer.unread).n⟩
              writer := p.writer.record [p.buffer.unread] }
            (some (failureError .flush p.buffer.unread
              (p.writer.behaviour p.writer.received p.buffer.unread)))) ∨
    (firstFailure p.writer (bufStep p.buffer)
        = some ⟨[], .flush, p.buffer.unread,
            p.writer.behaviour p.writer.received p.buffer.unread⟩ ∧
      (p.writer.behaviour p.writer.received p.buffer.unread).n > p.buffer.unread.length ∧
      flushBuffer p
        = .panicked { p with writer := p.writer.record [p.buffer.unread] }
            "bytes.Buffer.WriteTo: invalid Write count") := by
  by_cases h : p.buffer.Len > 0
  · by_cases hok : (p.writer.behaviour p.writer.received p.buffer.unread).ok p.buffer.unread
    · left
      refine ⟨by simp [bufStep, h, firstFailure, hok], ?_⟩
      rw [flushBuffer_of_ok p h hok, bufStep_of_pos _ h]
      rfl
    · have hff : firstFailure p.writer (bufStep p.buffer)
          = some ⟨[], .flush, p.buffer.unread,
              p.writer.behaviour p.writer.received p.buffer.unread⟩ := by
        simp [bufStep, h, firstFailure, hok]
      by_cases hov : (p.writer.behaviour p.writer.received p.buffer.unread).n
          > p.buffer.unread.length
      · right; right
        exact ⟨hff, hov, flushBuffer_of_over p h hov⟩
      · right; left
        exact ⟨hff, hov, flushBuffer_of_not_ok p h hok hov⟩
  · left
    refine ⟨by simp [bufStep, h, firstFailure], ?_⟩
    rw [flushBuffer_of_not_pos p h, bufStep_of_not_pos _ h]
    have hb := Buffer.eq_empty_of_not_pos p.buffer h
    cases p
    simp_all [callsOf, Writer.record_nil]

theorem Writer.Write_fst (w : Writer) (d : Bytes) : (w.Write d).1 = w.record [d] := rfl

theorem Writer.Write_snd (w : Writer) (d : Bytes) :
    (w.Write d).2 = w.behaviour w.received d := rfl

theorem countOf_nil : countOf [] = 0 := rfl

theorem callsOf_nil : callsOf [] = [] := rfl

theorem callsOf_cons (x : Step × Bytes) (xs : List (Step × Bytes)) :
    callsOf (x :: xs) = x.2 :: callsOf xs := rfl

theorem countOf_cons (x : Step × Bytes) (xs : List (Step × Bytes)) :
    countOf (x :: xs) = counted x + countOf xs := by
  simp [countOf]

theorem countOf_append (xs ys : List (Step × Bytes)) :
    countOf (xs ++ ys) = countOf xs + countOf ys := by
  simp [countOf]

theorem countOf_optStep_pre (x : Option Bytes) : countOf (optStep .pre x) = 0 := by
  unfold optStep
  split <;> simp [countOf, counted]

theorem countOf_optStep_suf (x : Option Bytes) : countOf (optStep .suf x) = 0 := by
  unfold optStep
  split <;> simp [countOf, counted]

theorem countOf_bufStep (b : Buffer) : countOf (bufStep b) = 0 := by
  unfold bufStep
  split <;> simp [countOf, counted]

theorem callsOf_append (xs ys : List (Step × Bytes)) :
    callsOf (xs ++ ys) = callsOf xs ++ callsOf ys := by
  simp [callsOf]

theorem callsOf_optStep (s : Step) (x : Option Bytes) : callsOf (optStep s x) = optCall x := by
  unfold optStep optCall
  split <;> simp [callsOf]

theorem callsOf_bufStep (b : Buffer) : callsOf (bufStep b) = bufCall b := by
  unfold bufStep bufCall
  split <;> simp [callsOf]

theorem any_flush_optStep (s : Step) (x : Option Bytes) (h : s ≠ .flush) :
    (optStep s x).any (fun y => decide (y.1 = Step.flush)) = false := by
  unfold optStep
  split <;> simp [h]

theorem bufferAfter_flushed (pre : Option Bytes) (b : Buffer) (acc : List (Step × Bytes))
    (s : Step) (d : Bytes) (r : WriteResult) (hs : s ≠ .flush) :
    bufferAfter b ⟨optStep .pre pre ++ (bufStep b ++ acc), s, d, r⟩ = ⟨[]⟩ := by
  unfold bufferAfter
  simp only [hs, if_false]
  by_cases hb : b.Len > 0
  · simp [bufStep_of_pos b hb]
  · rw [Buffer.eq_empty_of_not_pos b hb]
    simp

theorem bufferAfter_flushed_nil (pre : Option Bytes) (b : Buffer)
    (s : Step) (d : Bytes) (r : WriteResult) (hs : s ≠ .flush) :
    bufferAfter b ⟨optStep .pre pre ++ bufStep b, s, d, r⟩ = ⟨[]⟩ := by
  have := bufferAfter_flushed pre b [] s d r hs
  simpa using this

theorem failedWrite_of_not_flush (p : ShellPrinter) (n : Nat) (f : Failure)
    (hs : f.step ≠ .flush) :
    failedWrite p n f
      = .returned { p with writer := f.writer p.writer, buffer := bufferAfter p.buffer f }
          (n + countOf f.accepted, some (failureError f.step f.data f.result)) := by
  unfold failedWrite Failure.panics
  simp [hs]

/-- One iteration of the loop of `Write` on an arbitrary sink: it goes on
with the rest of the input when every request of the line is accepted, and
ends as `failedWrite` says at the first request that is not. -/
theorem writeLoop_step_any (fuel : Nat) (p : ShellPrinter) (n : Nat) (l r : Bytes)
    (h : LF ∉ l) :
    writeLoop (fuel + 1) p n (l ++ LF :: r)
      = (firstFailure p.writer
          (optStep .pre p.prefix_ ++ (bufStep p.buffer ++ ((Step.body, dropCR l)
            :: (optStep .suf p.suffix ++ [(Step.newline, l.drop (dropCR l).length ++ [LF])]))))).elim
          (writeLoop fuel
            { p with
              buffer := ⟨[]⟩
              writer := p.writer.record (optCall p.prefix_ ++ bufCall p.buffer ++ [dropCR l]
                ++ optCall p.suffix ++ [l.drop (dropCR l).length ++ [LF]]) }
            (n + (l.length + 1)) r)
          (failedWrite p n) := by
  have hlen := length_dropCR_le l
  have hsum : n + (dropCR l).length + (l.length - (dropCR l).length + 1) = n + (l.length + 1) := by
    omega
  conv_lhs => unfold writeLoop
  rw [ScanLines_append_cons l r h]
  simp only [Nat.add_one_ne_zero, if_false]
  simp only [slice_terminator, slice_rest]
  rw [firstFailure_append]
  rcases writePrefix_cases p with ⟨f1, c1⟩ | ⟨f1, c1⟩
  · rw [f1, c1, Option.elim_none, firstFailure_append]
    simp only
    rcases flushBuffer_cases
        { p with writer := p.writer.record (callsOf (optStep .pre p.prefix_)) }
      with ⟨f2, c2⟩ | ⟨f2, hov, c2⟩ | ⟨f2, hov, c2⟩
    · dsimp only at f2 c2
      rw [f2, c2, Option.elim_none]
      simp only [Writer.Write_fst, Writer.Write_snd]
      generalize hw2 : (p.writer.record (callsOf (optStep .pre p.prefix_))).record
        (callsOf (bufStep p.buffer)) = w2
      by_cases hok3 : (w2.behaviour w2.received (dropCR l)).ok (dropCR l)
      · rw [firstFailure_cons_ok _ _ _ _ _ _ hok3, firstFailure_append]
        simp only [hok3.1, hok3.2, ne_eq, not_true_eq_false, if_false]
        rcases writeSuffix_cases
            { p with buffer := ⟨[]⟩, writer := w2.record [dropCR l] }
          with ⟨f4, c4⟩ | ⟨f4, c4⟩
        · dsimp only at f4 c4
          rw [f4, c4, Option.elim_none]
          simp only [Writer.Write_fst, Writer.Write_snd]
          generalize hw4 : (w2.record [dropCR l]).record
            (callsOf (optStep .suf p.suffix)) = w4
          by_cases hok5 : (w4.behaviour w4.received (l.drop (dropCR l).length ++ [LF])).ok
              (l.drop (dropCR l).length ++ [LF])
          · rw [firstFailure_cons_ok _ _ _ _ _ _ hok5]
            simp only [hok5.1, hok5.2, ne_eq, not_true_eq_false, if_false, firstFailure,
              Option.elim_none, not_false_eq_true]
            subst hw4 hw2
            simp only [Writer.record_record, callsOf_optStep, callsOf_bufStep,
              List.length_append, List.length_drop, List.length_singleton, hsum,
              List.append_assoc]
          · rw [firstFailure_cons_not_ok _ _ _ _ _ _ hok5,
              failedWrite_of_not_flush _ _ _ (by simp)]
            generalize w4.behaviour w4.received (l.drop (dropCR l).length ++ [LF]) = resp
              at hok5 ⊢
            subst hw4 hw2
            unfold WriteResult.ok at hok5
            obtain ⟨n5, e5⟩ := resp
            cases e5 with
            | some e =>
              simp [Failure.writer, bufferAfter_flushed, countOf_append, countOf_optStep_pre,
                countOf_optStep_suf, countOf_bufStep, countOf_cons, countOf_nil, counted,
                callsOf_append, callsOf_cons, callsOf_nil, Writer.record_record, failureError,
                stepLabel, List.append_assoc]
            | none =>
              have hne : ¬n5 = l.length - (dropCR l).length + 1 := by
                simpa using hok5
              simp [Failure.writer, bufferAfter_flushed, countOf_append, countOf_optStep_pre,
                countOf_optStep_suf, countOf_bufStep, countOf_cons, countOf_nil, counted,
                callsOf_append, callsOf_cons, callsOf_nil, Writer.record_record, failureError,
                hne, List.append_assoc]
        · dsimp only at f4 c4
          rw [f4, c4, Option.elim_some, failedWrite_of_not_flush _ _ _ (by simp)]
          subst hw2
          simp [Failure.writer, bufferAfter_flushed, countOf_append, countOf_optStep_pre,
            countOf_bufStep, countOf_cons, countOf_nil, counted,
            callsOf_append, callsOf_cons, callsOf_nil, Writer.record_record, List.append_assoc]
      · rw [firstFailure_cons_not_ok _ _ _ _ _ _ hok3, failedWrite_of_not_flush _ _ _ (by simp)]
        generalize w2.behaviour w2.received (dropCR l) = resp at hok3 ⊢
        subst hw2
        unfold WriteResult.ok at hok3
        obtain ⟨n3, e3⟩ := resp
        cases e3 with
        | some e =>
          simp [Failure.writer, bufferAfter_flushed_nil, countOf_append, countOf_optStep_pre,
            countOf_bufStep, countOf_nil, callsOf_append, callsOf_nil, Writer.record_record,
            failureError, stepLabel, List.append_assoc]
        | none =>
          have hne : ¬n3 = (dropCR l).length := by
            simpa using hok3
          simp [Failure.writer, bufferAfter_flushed_nil, countOf_append, countOf_optStep_pre,
            countOf_bufStep, countOf_nil, callsOf_append, callsOf_nil, Writer.record_record,
            failureError, hne, List.append_assoc]
    · dsimp only at f2 c2 hov
      rw [f2, c2, Option.elim_some]
      simp [failedWrite, Failure.panics, Failure.writer, bufferAfter, countOf_append,
        countOf_optStep_pre, callsOf_append, Writer.record_record, hov, countOf_nil, callsOf_nil]
    · dsimp only at f2 c2 hov
      rw [f2, c2, Option.elim_some]
      simp [failedWrite, Failure.panics, Failure.writer, callsOf_append,
        Writer.record_record, hov, callsOf_nil]
  · rw [f1, c1, Option.elim_some]
    simp [failedWrite, Failure.panics, Failure.writer, bufferAfter, countOf_nil, callsOf_nil]

theorem lineSteps_assoc (pre suf : Option Bytes) (b : Buffer) (l : Line) :
    lineSteps pre suf b l
      = optStep .pre pre ++ (bufStep b ++ ((Step.body, l.body)
          :: (optStep .suf suf ++ [(Step.newline, l.terminator)]))) := by
  simp [lineSteps, List.append_assoc]

theorem callsOf_lineSteps (pre suf : Option Bytes) (b : Buffer) (l : Line) :
    callsOf (lineSteps pre suf b l)
      = optCall pre ++ bufCall b ++ [l.body] ++ optCall suf ++ [l.terminator] := by
  simp [lineSteps, callsOf_append, callsOf_optStep, callsOf_bufStep, callsOf_cons, callsOf_nil]

theorem callsOf_linesSteps (pre suf : Option Bytes) (ls : List Line) :
    ∀ b : Buffer, callsOf (linesSteps pre suf b ls) = linesCalls pre suf b ls := by
  induction ls with
  | nil => intro b; rfl
  | cons l ls ih =>
    intro b
    simp [linesSteps, linesCalls, callsOf_append, callsOf_lineSteps, ih]

theorem countOf_lineSteps (pre suf : Option Bytes) (b : Buffer) (l : Line) :
    countOf (lineSteps pre suf b l) = l.bytes.length := by
  simp [lineSteps, countOf_append, countOf_optStep_pre, countOf_optStep_suf, countOf_bufStep,
    countOf_cons, countOf_nil, counted, Line.bytes]

theorem countOf_linesSteps (pre suf : Option Bytes) (ls : List Line) :
    ∀ b : Buffer, countOf (linesSteps pre suf b ls) = (linesBytes ls).length := by
  induction ls with
  | nil => intro b; rfl
  | cons l ls ih =>
    intro b
    simp [linesSteps, countOf_append, countOf_lineSteps, ih, linesBytes]

/-- One iteration of the loop of `Write` on a well-formed line and an
arbitrary sink. -/
theorem writeLoop_line_any (fuel : Nat) (p : ShellPrinter) (n : Nat) (l : Line) (rest : Bytes)
    (hl : l.WellFormed) :
    writeLoop (fuel + 1) p n (l.bytes ++ rest)
      = (firstFailure p.writer (lineSteps p.prefix_ p.suffix p.buffer l)).elim
          (writeLoop fuel
            { p with
              buffer := ⟨[]⟩
              writer := p.writer.record (callsOf (lineSteps p.prefix_ p.suffix p.buffer l)) }
            (n + l.bytes.length) rest)
          (failedWrite p n) := by
  obtain ⟨body, cr⟩ := l
  obtain ⟨hLF, hCR⟩ := hl
  rw [callsOf_lineSteps, lineSteps_assoc]
  cases cr with
  | true =>
    have hraw : LF ∉ body ++ [CR] := by
      simp only [List.mem_append, List.mem_singleton, not_or]
      exact ⟨hLF, by decide⟩
    have := writeLoop_step_any fuel p n (body ++ [CR]) rest hraw
    simp only [dropCR_append_CR, List.drop_left, List.length_append, List.length_singleton,
      List.append_assoc, List.singleton_append] at this
    simpa [Line.bytes, Line.terminator, List.append_assoc] using this
  | false =>
    have hd : dropCR body = body := dropCR_of_getLast body (hCR rfl)
    have := writeLoop_step_any fuel p n body rest hLF
    simp only [hd, List.drop_length, List.nil_append] at this
    simpa [Line.bytes, Line.terminator, List.append_assoc] using this

theorem firstFailure_mem (steps : List (Step × Bytes)) :
    ∀ (w : Writer) (f : Failure), firstFailure w steps = some f →
      steps = f.accepted ++ (f.step, f.data) :: steps.drop (f.accepted.length + 1) := by
  induction steps with
  | nil => intro w f h; simp [firstFailure] at h
  | cons x xs ih =>
    intro w f h
    obtain ⟨s, d⟩ := x
    by_cases hok : (w.behaviour w.received d).ok d
    · simp only [firstFailure, hok, if_true, Option.map_eq_some'] at h
      obtain ⟨g, hg, rfl⟩ := h
      have := ih _ g hg
      simp only [List.cons_append, List.length_cons, List.drop_succ_cons]
      rw [← this]
    · simp only [firstFailure, hok, if_false, Option.some.injEq] at h
      subst h
      simp

theorem Option.elim_congr {α β : Type} (x : Option α) (a : β) (F G : α → β)
    (h : ∀ y, x = some y → F y = G y) : x.elim a F = x.elim a G := by
  cases x with
  | none => rfl
  | some y => exact h y rfl

theorem fst_of_mem_optStep (s : Step) (y : Option Bytes) (x : Step × Bytes)
    (h : x ∈ optStep s y) : x.1 = s := by
  unfold optStep at h
  split at h
  · rw [List.mem_singleton.mp h]
  · simp at h

theorem not_flush_of_mem_lineSteps (pre suf : Option Bytes) (l : Line) (x : Step × Bytes)
    (h : x ∈ lineSteps pre suf ⟨[]⟩ l) : x.1 ≠ .flush := by
  have hb : bufStep ⟨[]⟩ = [] := rfl
  simp only [lineSteps, hb, List.mem_append, List.mem_singleton, List.append_nil, or_assoc] at h
  rcases h with h | h | h | h
  · rw [fst_of_mem_optStep _ _ _ h]; decide
  · rw [h]; simp
  · rw [fst_of_mem_optStep _ _ _ h]; decide
  · rw [h]; simp

theorem not_flush_of_mem_linesSteps (pre suf : Option Bytes) (ls : List Line)
    (x : Step × Bytes) (h : x ∈ linesSteps pre suf ⟨[]⟩ ls) : x.1 ≠ .flush := by
  induction ls with
  | nil => simp [linesSteps] at h
  | cons l ls ih =>
    simp only [linesSteps, List.mem_append] at h
    rcases h with h | h
    · exact not_flush_of_mem_lineSteps pre suf l x h
    · exact ih h

theorem bufferAfter_empty (f : Failure) (hs : f.step ≠ .flush) : bufferAfter ⟨[]⟩ f = ⟨[]⟩ := by
  unfold bufferAfter
  simp [hs]

theorem failedWrite_shift (p : ShellPrinter) (n : Nat) (l : Line) (f : Failure)
    (hs : f.step ≠ .flush) :
    failedWrite
        { p with
          buffer := ⟨[]⟩
          writer := p.writer.record (callsOf (lineSteps p.prefix_ p.suffix p.buffer l)) }
        (n + l.bytes.length) f
      = failedWrite p n
          { f with accepted := lineSteps p.prefix_ p.suffix p.buffer l ++ f.accepted } := by
  rw [failedWrite_of_not_flush _ _ f hs,
    failedWrite_of_not_flush p n
      { f with accepted := lineSteps p.prefix_ p.suffix p.buffer l ++ f.accepted } hs]
  have hb : bufferAfter p.buffer
      { f with accepted := lineSteps p.prefix_ p.suffix p.buffer l ++ f.accepted } = ⟨[]⟩ := by
    rw [lineSteps_assoc]
    simp only [List.append_assoc]
    exact bufferAfter_flushed _ _ _ _ _ _ hs
  simp only [hb, bufferAfter_empty f hs, Failure.writer, Writer.record_record, callsOf_append,
    countOf_append, countOf_lineSteps, List.append_assoc, Nat.add_assoc]

/-- The loop of `Write` on an arbitrary sink, for an input made of well-formed
lines and a remainder: it ends as on an accepting sink when every request is
accepted, and as `failedWrite` says at the first request that is not. -/
theorem writeLoop_lines_any (ls : List Line) :
    ∀ (fuel : Nat) (p : ShellPrinter) (n : Nat) (r : Bytes),
      (∀ l ∈ ls, l.WellFormed) → LF ∉ r → ls.length < fuel →
      writeLoop fuel p n (linesBytes ls ++ r)
        = (firstFailure p.writer (linesSteps p.prefix_ p.suffix p.buffer ls)).elim
            (.returned
              { p with
                buffer := ⟨pendingAfter p.buffer ls ++ r⟩
                writer := p.writer.record (linesCalls p.prefix_ p.suffix p.buffer ls) }
              (n + (linesBytes ls ++ r).length, none))
            (failedWrite p n) := by
  induction ls with
  | nil =>
    intro fuel p n r _ hr hf
    obtain ⟨fuel, rfl⟩ : ∃ k, fuel = k + 1 := ⟨fuel - 1, by simp at hf; omega⟩
    simp [linesBytes, writeLoop_of_not_mem fuel p n r hr, pendingAfter, linesCalls,
      Writer.record_nil, linesSteps, firstFailure]
  | cons l ls ih =>
    intro fuel p n r hwf hr hf
    obtain ⟨fuel, rfl⟩ : ∃ k, fuel = k + 1 := ⟨fuel - 1, by simp at hf; omega⟩
    have hl : l.WellFormed := hwf l (List.mem_cons_self _ _)
    have hls : ∀ x ∈ ls, x.WellFormed := fun x hx => hwf x (List.mem_cons_of_mem _ hx)
    have hbytes : linesBytes (l :: ls) ++ r = l.bytes ++ (linesBytes ls ++ r) := by
      simp [linesBytes, List.append_assoc]
    rw [hbytes, writeLoop_line_any fuel p n l _ hl,
      ih fuel
        { p with
          buffer := ⟨[]⟩
          writer := p.writer.record (callsOf (lineSteps p.prefix_ p.suffix p.buffer l)) }
        _ r hls hr (by simpa using hf)]
    simp only [linesSteps]
    rw [firstFailure_append]
    congr 1
    have hcalls : (p.writer.record (callsOf (lineSteps p.prefix_ p.suffix p.buffer l))).record
        (linesCalls p.prefix_ p.suffix ⟨[]⟩ ls)
        = p.writer.record (linesCalls p.prefix_ p.suffix p.buffer (l :: ls)) := by
      simp [Writer.record_record, callsOf_lineSteps, linesCalls, List.append_assoc]
    have hpend : pendingAfter ⟨[]⟩ ls = [] := by cases ls <;> rfl
    have hret : (Outcome.returned
          { p with
            buffer := ⟨pendingAfter ⟨[]⟩ ls ++ r⟩
            writer := (p.writer.record (callsOf (lineSteps p.prefix_ p.suffix p.buffer l))).record
              (linesCalls p.prefix_ p.suffix ⟨[]⟩ ls) }
          (n + l.bytes.length + (linesBytes ls ++ r).length, none)
        : Outcome (Nat × Option GoError))
        = .returned
          { p with
            buffer := ⟨pendingAfter p.buffer (l :: ls) ++ r⟩
            writer := p.writer.record (linesCalls p.prefix_ p.suffix p.buffer (l :: ls)) }
          (n + (l.bytes ++ (linesBytes ls ++ r)).length, none) := by
      rw [hcalls, hpend]
      simp [pendingAfter, Nat.add_assoc]
    rw [hret]
    apply Option.elim_congr
    intro f hf2
    have hmem := firstFailure_mem _ _ _ hf2
    have hs : f.step ≠ .flush := by
      have : (f.step, f.data) ∈ linesSteps p.prefix_ p.suffix ⟨[]⟩ ls := by
        rw [hmem]
        simp
      exact not_flush_of_mem_linesSteps _ _ _ _ this
    exact failedWrite_shift p n l f hs

/-- The result of `Write` on an arbitrary sink, for an input given as lines
and a remainder. -/
theorem Write_any (p : ShellPrinter) (ls : List Line) (r : Bytes)
    (hwf : ∀ l ∈ ls, l.WellFormed) (hr : LF ∉ r) :
    Write p (linesBytes ls ++ r)
      = (firstFailure p.writer (linesSteps p.prefix_ p.suffix p.buffer ls)).elim
          (.returned
            { p with
              buffer := ⟨pendingAfter p.buffer ls ++ r⟩
              writer := p.writer.record (linesCalls p.prefix_ p.suffix p.buffer ls) }
            ((linesBytes ls ++ r).length, none))
          (failedWrite p 0) := by
  have hf : ls.length < (linesBytes ls ++ r).length + 1 := by
    have := length_linesBytes_ge ls
    simp only [List.length_append]
    omega
  have := writeLoop_lines_any ls _ p 0 r hwf hr hf
  simpa [Write] using this

/-- The result of `Close` on an arbitrary sink. -/
theorem Close_any (p : ShellPrinter) :
    Close p
      = (firstFailure p.writer (closeSteps p.prefix_ p.buffer)).elim
          (.returned
            { p with
              buffer := ⟨[]⟩
              writer := p.writer.record (callsOf (closeSteps p.prefix_ p.buffer)) }
            none)
          (failedClose p) := by
  unfold Close closeSteps
  by_cases hB : p.buffer.Len > 0
  · rw [if_pos hB, if_pos hB, firstFailure_append]
    have hbs : bufStep p.buffer = [(.flush, p.buffer.unread)] := bufStep_of_pos _ hB
    rcases writePrefix_cases p with ⟨f1, c1⟩ | ⟨f1, c1⟩
    · rw [f1, c1, Option.elim_none]
      simp only
      rcases flushBuffer_cases
          { p with writer := p.writer.record (callsOf (optStep .pre p.prefix_)) }
        with ⟨f2, c2⟩ | ⟨f2, hov, c2⟩ | ⟨f2, hov, c2⟩
      · dsimp only at f2 c2
        rw [hbs] at f2 c2
        rw [f2, c2, Option.elim_none]
        simp [Writer.record_record, callsOf_append]
      · dsimp only at f2 c2 hov
        rw [hbs] at f2
        rw [f2, c2, Option.elim_some]
        simp [failedClose, Failure.panics, Failure.writer, bufferAfter, callsOf_append,
          Writer.record_record, hov, callsOf_nil]
      · dsimp only at f2 c2 hov
        rw [hbs] at f2
        rw [f2, c2, Option.elim_some]
        simp [failedClose, Failure.panics, Failure.writer, callsOf_append,
          Writer.record_record, hov, callsOf_nil]
    · rw [f1, c1, Option.elim_some]
      simp [failedClose, Failure.panics, Failure.writer, bufferAfter, callsOf_nil]
  · rw [if_neg hB, if_neg hB]
    have hb := Buffer.eq_empty_of_not_pos p.buffer hB
    cases p
    simp_all [firstFailure, callsOf_nil, Writer.record_nil]

theorem Writer.allOk_append (xs : List Bytes) :
    ∀ (w : Writer) (ys : List Bytes),
      w.allOk (xs ++ ys) ↔ w.allOk xs ∧ (w.record xs).allOk ys := by
  induction xs with
  | nil => intro w ys; simp [Writer.allOk, Writer.record_nil]
  | cons x xs ih =>
    intro w ys
    have h := ih (w.record [x]) ys
    simp only [Writer.record_record, List.singleton_append] at h
    show (w.behaviour w.received x).ok x ∧ (w.record [x]).allOk (xs ++ ys) ↔
      ((w.behaviour w.received x).ok x ∧ (w.record [x]).allOk xs) ∧ (w.record (x :: xs)).allOk ys
    rw [h, and_assoc]

theorem firstFailure_none (steps : List (Step × Bytes)) :
    ∀ w : Writer, firstFailure w steps = none → w.allOk (callsOf steps) := by
  induction steps with
  | nil => intro w _; trivial
  | cons x xs ih =>
    intro w h
    obtain ⟨s, d⟩ := x
    by_cases hok : (w.behaviour w.received d).ok d
    · simp only [firstFailure, hok, if_true, Option.map_eq_none'] at h
      exact ⟨hok, ih _ h⟩
    · simp [firstFailure, hok] at h

theorem firstFailure_some (steps : List (Step × Bytes)) :
    ∀ (w : Writer) (f : Failure), firstFailure w steps = some f →
      w.allOk (callsOf f.accepted) ∧
      f.result = (w.record (callsOf f.accepted)).behaviour
        (w.record (callsOf f.accepted)).received f.data ∧
      ¬f.result.ok f.data := by
  induction steps with
  | nil => intro w f h; simp [firstFailure] at h
  | cons x xs ih =>
    intro w f h
    obtain ⟨s, d⟩ := x
    by_cases hok : (w.behaviour w.received d).ok d
    · simp only [firstFailure, hok, if_true, Option.map_eq_some'] at h
      obtain ⟨g, hg, rfl⟩ := h
      obtain ⟨h1, h2, h3⟩ := ih _ g hg
      refine ⟨⟨hok, h1⟩, ?_, h3⟩
      simpa [callsOf_cons, Writer.record_record] using h2
    · simp only [firstFailure, hok, if_false, Option.some.injEq] at h
      subst h
      exact ⟨trivial, by simp [callsOf_nil, Writer.record_nil], hok⟩

theorem bufferAfter_suffix (b : Buffer) (f : Failure) :
    (bufferAfter b f).unread <:+ b.unread := by
  unfold bufferAfter
  split
  · exact List.drop_suffix _ _
  · split
    · exact List.nil_suffix
    · exact List.suffix_refl _

theorem not_mem_bufferAfter (b : Buffer) (f : Failure) (x : Byte) (h : x ∉ b.unread) :
    x ∉ (bufferAfter b f).unread :=
  fun hm => h ((bufferAfter_suffix b f).subset hm)

theorem split_cons_cases {α : Type} (xs ys before after : List α) (x : α)
    (h : xs ++ ys = before ++ x :: after) :
    (∃ m, xs = before ++ x :: m ∧ after = m ++ ys) ∨
    (∃ a, before = xs ++ a ∧ ys = a ++ x :: after) := by
  rcases List.append_eq_append_iff.mp h with ⟨a, h1, h2⟩ | ⟨c, h1, h2⟩
  · exact Or.inr ⟨a, h1, h2⟩
  · cases c with
    | nil =>
      right
      refine ⟨[], ?_, ?_⟩
      · simpa using h1.symm
      · simpa using h2.symm
    | cons y c =>
      left
      simp only [List.cons_append, List.cons.injEq] at h2
      obtain ⟨rfl, h3⟩ := h2
      exact ⟨c, h1, h3⟩

theorem countOf_initial_eq_zero (before rest xs : List (Step × Bytes)) (h : xs = before ++ rest)
    (h0 : countOf xs = 0) : countOf before = 0 := by
  rw [h, countOf_append] at h0
  omega

/-- In the requests of one line, the input bytes counted before a request are
none before the prefix, the flush and the body, and the body before the suffix
and the terminator. -/
theorem countOf_before (pre suf : Option Bytes) (b : Buffer) (l : Line)
    (before after : List (Step × Bytes)) (s : Step) (d : Bytes)
    (h : lineSteps pre suf b l = before ++ (s, d) :: after) :
    countOf before = if s = .suf ∨ s = .newline then l.body.length else 0 := by
  rw [lineSteps_assoc] at h
  rcases split_cons_cases _ _ _ _ _ h with ⟨m, h1, _⟩ | ⟨a1, hb1, h1⟩
  · have hs : s = .pre := fst_of_mem_optStep .pre pre (s, d) (by rw [h1]; simp)
    rw [countOf_initial_eq_zero before _ _ h1 (countOf_optStep_pre pre), hs]
    simp
  · rcases split_cons_cases _ _ _ _ _ h1 with ⟨m, h2, _⟩ | ⟨a2, hb2, h2⟩
    · have hs : s = .flush := by
        have hm : (s, d) ∈ bufStep b := by rw [h2]; simp
        unfold bufStep at hm
        split at hm
        · exact congrArg Prod.fst (List.mem_singleton.mp hm)
        · simp at hm
      rw [hb1, countOf_append, countOf_optStep_pre,
        countOf_initial_eq_zero a1 _ _ h2 (countOf_bufStep b), hs]
      simp
    · cases a2 with
      | nil =>
        simp only [List.nil_append, List.cons.injEq, Prod.mk.injEq] at h2
        obtain ⟨⟨hs, _⟩, _⟩ := h2
        rw [hb1, hb2, countOf_append, countOf_append, countOf_optStep_pre, countOf_bufStep,
          countOf_nil, ← hs]
        simp
      | cons y a3 =>
        simp only [List.cons_append, List.cons.injEq] at h2
        obtain ⟨hy, h3⟩ := h2
        have hcount : countOf before = l.body.length + countOf a3 := by
          rw [hb1, hb2, countOf_append, countOf_append, countOf_optStep_pre, countOf_bufStep,
            countOf_cons, ← hy]
          simp [counted]
        rcases split_cons_cases _ _ _ _ _ h3 with ⟨m, h4, _⟩ | ⟨a4, hb4, h4⟩
        · have hs : s = .suf := fst_of_mem_optStep .suf suf (s, d) (by rw [h4]; simp)
          rw [hcount, countOf_initial_eq_zero a3 _ _ h4 (countOf_optStep_suf suf), hs]
          simp
        · cases a4 with
          | nil =>
            simp only [List.nil_append, List.cons.injEq, Prod.mk.injEq] at h4
            obtain ⟨⟨hs, _⟩, _⟩ := h4
            rw [hcount, hb4, countOf_append, countOf_optStep_suf, countOf_nil, ← hs]
            simp
          | cons z a5 =>
            simp only [List.cons_append, List.cons.injEq] at h4
            obtain ⟨_, h5⟩ := h4
            exact absurd h5 (by simp)

/-- A request of `Write` belongs to the requests of one of the lines. -/
theorem locate_step (pre suf : Option Bytes) (ls : List Line) :
    ∀ (b : Buffer) (acc tail : List (Step × Bytes)) (x : Step × Bytes),
      linesSteps pre suf b ls = acc ++ x :: tail →
      ∃ (done : List Line) (l : Line) (rest : List Line) (before after : List (Step × Bytes)),
        ls = done ++ l :: rest ∧
        lineSteps pre suf ⟨pendingAfter b done⟩ l = before ++ x :: after ∧
        acc = linesSteps pre suf b done ++ before := by
  induction ls with
  | nil =>
    intro b acc tail x h
    simp [linesSteps] at h
  | cons l ls ih =>
    intro b acc tail x h
    simp only [linesSteps] at h
    rcases split_cons_cases _ _ _ _ _ h with ⟨m, h1, _⟩ | ⟨a, hb, h1⟩
    · exact ⟨[], l, ls, acc, m, rfl, by simpa [pendingAfter] using h1, by simp [linesSteps]⟩
    · obtain ⟨done, l2, rest, before, after, e1, e2, e3⟩ := ih ⟨[]⟩ a tail x h1
      have hp : pendingAfter ⟨[]⟩ done = [] := by cases done <;> rfl
      refine ⟨l :: done, l2, rest, before, after, by rw [e1]; rfl, ?_, ?_⟩
      · rw [hp] at e2
        simpa [pendingAfter] using e2
      · rw [hb, e3]
        simp [linesSteps, List.append_assoc]

theorem count_LF_line (l : Line) (h : l.WellFormed) : l.bytes.count LF = 1 := by
  have h0 : l.body.count LF = 0 := List.count_eq_zero_of_not_mem h.1
  unfold Line.bytes Line.terminator
  rw [List.count_append, h0]
  split <;> decide

theorem count_LF_linesBytes (ls : List Line) (h : ∀ l ∈ ls, l.WellFormed) :
    (linesBytes ls).count LF = ls.length := by
  induction ls with
  | nil => rfl
  | cons l ls ih =>
    have h1 := count_LF_line l (h l (List.mem_cons_self _ _))
    have h2 := ih (fun x hx => h x (List.mem_cons_of_mem _ hx))
    simp only [linesBytes, List.map_cons, List.flatten_cons, List.count_append,
      List.length_cons] at h2 ⊢
    omega

theorem count_LF_data (ls : List Line) (r : Bytes) (h : ∀ l ∈ ls, l.WellFormed)
    (hr : LF ∉ r) : (linesBytes ls ++ r).count LF = ls.length := by
  rw [List.count_append, count_LF_linesBytes ls h, List.count_eq_zero_of_not_mem hr]
  rfl

theorem length_linesCalls_empty (pre suf : Option Bytes) (ls : List Line) :
    (linesCalls pre suf ⟨[]⟩ ls).length
      = ls.length * (2 + (optCall pre).length + (optCall suf).length) := by
  induction ls with
  | nil => simp [linesCalls]
  | cons l ls ih =>
    have hb : bufCall ⟨[]⟩ = [] := rfl
    simp only [linesCalls, hb, List.length_append, List.length_cons, List.length_nil, ih]
    ring

theorem length_linesCalls (pre suf : Option Bytes) (b : Buffer) (ls : List Line) :
    (linesCalls pre suf b ls).length
      = ls.length * (2 + (optCall pre).length + (optCall suf).length)
        + (if ls ≠ [] then (bufCall b).length else 0) := by
  cases ls with
  | nil => simp [linesCalls]
  | cons l ls =>
    simp only [linesCalls, List.length_append, List.length_cons, List.length_nil,
      length_linesCalls_empty, ne_eq, reduceCtorEq, not_false_eq_true, if_true]
    ring

theorem firstFailure_of_acceptsAll (steps : List (Step × Bytes)) :
    ∀ w : Writer, w.AcceptsAll → firstFailure w steps = none := by
  induction steps with
  | nil => intro w _; rfl
  | cons x xs ih =>
    intro w hw
    obtain ⟨s, d⟩ := x
    have hok : (w.behaviour w.received d).ok d := by
      rw [hw w.received d]
      exact ⟨rfl, rfl⟩
    simp only [firstFailure, hok, if_true, Option.map_eq_none']
    exact ih _ hw

theorem not_mem_pendingAfter (b : Buffer) (ls : List Line) (x : Byte) (h : x ∉ b.unread) :
    x ∉ pendingAfter b ls := by
  cases ls with
  | nil => exact h
  | cons l ls => simp [pendingAfter]

/-- `Write` keeps the pending buffer free of line feeds, however it ends. -/
theorem Write_keeps_invariant (p : ShellPrinter) (data : Bytes) (h : LF ∉ p.buffer.unread) :
    ∀ q, (Write p data).state? = some q → LF ∉ q.buffer.unread := by
  obtain ⟨ls, r, hd, hwf, hr⟩ := exists_lines data.length data rfl
  rw [hd, Write_any p ls r hwf hr]
  cases firstFailure p.writer (linesSteps p.prefix_ p.suffix p.buffer ls) with
  | none =>
    intro q hq
    simp only [Option.elim_none, Outcome.state?, Option.some.injEq] at hq
    subst hq
    simp only [List.mem_append, not_or]
    exact ⟨not_mem_pendingAfter _ _ _ h, hr⟩
  | some f =>
    intro q hq
    rw [Option.elim_some] at hq
    unfold failedWrite at hq
    split at hq
    · simp only [Outcome.state?, Option.some.injEq] at hq
      subst hq
      exact h
    · simp only [Outcome.state?, Option.some.injEq] at hq
      subst hq
      exact not_mem_bufferAfter _ _ _ h

/-- `Close` keeps the pending buffer free of line feeds, however it ends. -/
theorem Close_keeps_invariant (p : ShellPrinter) (h : LF ∉ p.buffer.unread) :
    ∀ q, (Close p).state? = some q → LF ∉ q.buffer.unread := by
  rw [Close_any p]
  cases firstFailure p.writer (closeSteps p.prefix_ p.buffer) with
  | none =>
    intro q hq
    simp only [Option.elim_none, Outcome.state?, Option.some.injEq] at hq
    subst hq
    simp
  | some f =>
    intro q hq
    rw [Option.elim_some] at hq
    unfold failedClose at hq
    split at hq
    · simp only [Outcome.state?, Option.some.injEq] at hq
      subst hq
      exact h
    · simp only [Outcome.state?, Option.some.injEq] at hq
      subst hq
      exact not_mem_bufferAfter _ _ _ h

theorem applyOp_keeps_invariant (p : ShellPrinter) (op : Op) (h : LF ∉ p.buffer.unread) :
    LF ∉ (applyOp p op).buffer.unread := by
  cases op with
  | write data =>
    show LF ∉ (((Write p data).state?).getD p).buffer.unread
    cases hs : (Write p data).state? with
    | none => exact h
    | some q => exact Write_keeps_invariant p data h q hs
  | close =>
    show LF ∉ (((Close p).state?).getD p).buffer.unread
    cases hs : (Close p).state? with
    | none => exact h
    | some q => exact Close_keeps_invariant p h q hs

theorem runOps_keeps_invariant (ops : List Op) :
    ∀ p : ShellPrinter, LF ∉ p.buffer.unread → LF ∉ (runOps p ops).buffer.unread := by
  induction ops with
  | nil => intro p h; exact h
  | cons op ops ih =>
    intro p h
    exact ih _ (applyOp_keeps_invariant p op h)

theorem stepLabel_ne_scan (s : Step) : stepLabel s ≠ "failed to scan lines" := by
  cases s <;> decide

theorem failureError_ne_scan (s : Step) (d : Bytes) (r : WriteResult) (cause : GoError) :
    failureError s d r ≠ .wrap cause "failed to scan lines" := by
  unfold failureError
  cases r.err with
  | some e =>
    intro h
    simp only [GoError.wrap.injEq] at h
    exact stepLabel_ne_scan s h.2
  | none =>
    cases s <;> simp [inconsistency]

theorem length_terminator_pos (l : Line) : 1 ≤ l.terminator.length := by
  unfold Line.terminator
  split <;> simp

/-- The count of a failed `Write` is smaller than the length of the lines of
the input: the terminator of the failed line is never counted. -/
theorem countOf_accepted_lt (pre suf : Option Bytes) (b : Buffer) (ls : List Line)
    (w : Writer) (f : Failure) (hf : firstFailure w (linesSteps pre suf b ls) = some f) :
    countOf f.accepted < (linesBytes ls).length := by
  have hmem := firstFailure_mem _ _ _ hf
  obtain ⟨done, l, rest, before, after, e1, e2, e3⟩ :=
    locate_step pre suf ls b f.accepted _ (f.step, f.data) hmem
  have hc := countOf_before _ _ _ _ _ _ _ _ e2
  have ht := length_terminator_pos l
  rw [e3, countOf_append, countOf_linesSteps, hc, e1, linesBytes_append]
  simp only [linesBytes, List.map_cons, List.flatten_cons, List.length_append, Line.bytes]
  split <;> omega

theorem count_LF_append_cons (l r : Bytes) (h : LF ∉ l) :
    (l ++ LF :: r).count LF = r.count LF + 1 := by
  rw [List.count_append, List.count_eq_zero_of_not_mem h, List.count_cons_self]
  omega

/-- The result of the loop of `Write` does not depend on the step budget, once
the budget exceeds the number of line feeds of the input. -/
theorem writeLoop_fuel_irrelevant (fuel1 : Nat) :
    ∀ (fuel2 : Nat) (p : ShellPrinter) (n : Nat) (data : Bytes),
      data.count LF < fuel1 → data.count LF < fuel2 →
      writeLoop fuel1 p n data = writeLoop fuel2 p n data := by
  induction fuel1 with
  | zero => intro fuel2 p n data h; omega
  | succ k ih =>
    intro fuel2 p n data h1 h2
    obtain ⟨k2, rfl⟩ : ∃ j, fuel2 = j + 1 := ⟨fuel2 - 1, by omega⟩
    by_cases hm : LF ∈ data
    · obtain ⟨l, r, hd, hl⟩ := List.eq_append_cons_of_mem hm
      subst hd
      rw [count_LF_append_cons l r hl] at h1 h2
      rw [writeLoop_step_any k p n l r hl, writeLoop_step_any k2 p n l r hl,
        ih k2 _ _ r (by omega) (by omega)]
    · rw [writeLoop_of_not_mem k p n data hm, writeLoop_of_not_mem k2 p n data hm]

theorem Write_eq_writeLoop_count (p : ShellPrinter) (data : Bytes) :
    Write p data = writeLoop (data.count LF + 1) p 0 data := by
  unfold Write
  exact writeLoop_fuel_irrelevant _ _ p 0 data
    (Nat.lt_succ_of_le (List.count_le_length _ _)) (Nat.lt_succ_self _)

theorem ScanLines_bounds (data : Bytes) (h : (ScanLines data false).1 ≠ 0) :
    1 ≤ (ScanLines data false).1 ∧
    (ScanLines data false).1 ≤ data.length ∧
    (ScanLines data false).2.1.length < (ScanLines data false).1 ∧
    (slice data (ScanLines data false).2.1.length (ScanLines data false).1).isSome = true ∧
    (slice data (ScanLines data false).1 data.length).isSome = true := by
  by_cases hm : LF ∈ data
  · obtain ⟨l, r, hd, hl⟩ := List.eq_append_cons_of_mem hm
    subst hd
    have hlen := length_dropCR_le l
    rw [ScanLines_append_cons l r hl]
    simp only [slice_terminator, slice_rest, Option.isSome_some, and_true]
    simp only [List.length_append, List.length_cons]
    clear h
    refine ⟨by omega, by omega, by omega⟩
  · rw [ScanLines_of_not_mem data hm] at h
    exact absurd rfl h

end ShellPrinter

namespace ShellPrinter

/-! ## Theorems on `Write` and `Close` -/

/-- C1. On a sink that accepts every write in full, for every pending buffer
`B`, prefix `P`, suffix `S` and every input `l1 t1 ... lk tk r` with `k ≥ 1`
made of well-formed lines followed by a remainder `r` without line feed,
`Write` returns the length of the input and no error, hands the sink exactly
`P ++ B ++ l1 ++ S ++ t1 ++ P ++ l2 ++ S ++ t2 ++ ... ++ P ++ lk ++ S ++ tk`
and leaves the pending buffer equal to `r`. -/
theorem Write_emits_lines (p : ShellPrinter) (ls : List Line) (r : Bytes)
    (hw : p.writer.AcceptsAll) (hk : ls ≠ []) (hwf : ∀ l ∈ ls, l.WellFormed) (hr : LF ∉ r) :
    ∃ q : ShellPrinter,
      Write p (linesBytes ls ++ r) = .returned q ((linesBytes ls ++ r).length, none) ∧
      q.writer.delivered
        = p.writer.delivered
          ++ renderLines (bytesOf p.prefix_) (bytesOf p.suffix) p.buffer.unread ls ∧
      q.buffer.unread = r := by
  refine ⟨_, Write_of_lines p ls r hw hwf hr, ?_, ?_⟩
  · simp [Writer.delivered_record, flatten_linesCalls]
  · cases ls with
    | nil => exact absurd rfl hk
    | cons l ls => simp [pendingAfter]

/-- Witness of C1: prefix `=>`, input `hello\nmagnificent\nworld`. -/
theorem Write_emits_lines_witness :
    acceptAll.AcceptsAll ∧
    (∀ l ∈ [(⟨bs "hello", false⟩ : Line), ⟨bs "magnificent", false⟩], l.WellFormed) ∧
    LF ∉ bs "world" ∧
    ∃ q : ShellPrinter,
      Write ((New acceptAll).WithPrefixString "=>") (bs "hello\nmagnificent\nworld")
        = .returned q (23, none) ∧
      q.writer.delivered = bs "=>hello\n=>magnificent\n" ∧
      q.buffer.unread = bs "world" :=
  ⟨fun _ _ => rfl, by decide, by decide,
    Write_emits_lines ((New acceptAll).WithPrefixString "=>")
      [⟨bs "hello", false⟩, ⟨bs "magnificent", false⟩] (bs "world")
      (fun _ _ => rfl) (by decide) (by decide) (by decide)⟩

/-- C2 (the code does not meet it). With suffix `<=` and a sink that accepts
every write, the input `a\r\n` written in the two chunks `a\r` and `\n` and
then closed delivers `a\r<=\n`, while the same input written in one chunk and
then closed delivers `a<=\r\n`. -/
theorem split_between_CR_and_LF_differs :
    (writeAllThenClose ((New acceptAll).WithSuffixString "<=")
        [bs "a\r", bs "\n"]).delivered? = some (bs "a\r<=\n") ∧
    (writeAllThenClose ((New acceptAll).WithSuffixString "<=")
        [bs "a\r\n"]).delivered? = some (bs "a<=\r\n") ∧
    (writeAllThenClose ((New acceptAll).WithSuffixString "<=") [bs "a\r", bs "\n"]).delivered?
      ≠ (writeAllThenClose ((New acceptAll).WithSuffixString "<=") [bs "a\r\n"]).delivered? := by
  decide

/-- C3. On a sink that accepts every write in full, for every printer state
(pending buffer, prefix, suffix) and every input, `Write` returns the length
of the input and no error. -/
theorem Write_returns_input_length (p : ShellPrinter) (data : Bytes)
    (hw : p.writer.AcceptsAll) :
    ∃ q : ShellPrinter, Write p data = .returned q (data.length, none) := by
  obtain ⟨ls, r, hd, hwf, hr⟩ := exists_lines data.length data rfl
  rw [hd]
  exact ⟨_, Write_of_lines p ls r hw hwf hr⟩

/-- Witness of C3: pending buffer `magnif`, prefix `=>`, input `icent\nworld`
of length 11. -/
theorem Write_returns_input_length_witness :
    acceptAll.AcceptsAll ∧
    ∃ q : ShellPrinter,
      Write ⟨acceptAll, ⟨bs "magnif"⟩, some (bs "=>"), none⟩ (bs "icent\nworld")
        = .returned q (11, none) :=
  ⟨fun _ _ => rfl,
    Write_returns_input_length ⟨acceptAll, ⟨bs "magnif"⟩, some (bs "=>"), none⟩
      (bs "icent\nworld") (fun _ _ => rfl)⟩

/-- C4. On a sink that accepts every write in full, `Close` on a non-empty
pending buffer `B` makes the sink calls for the prefix (if it is non-empty) and
for `B` and no other, so that the sink gets exactly `P ++ B`; it returns no
error and leaves the pending buffer empty. -/
theorem Close_flushes_prefix_and_buffer (p : ShellPrinter) (hw : p.writer.AcceptsAll)
    (hB : p.buffer.unread ≠ []) :
    ∃ q : ShellPrinter,
      Close p = .returned q none ∧
      q.writer.received = p.writer.received ++ optCall p.prefix_ ++ [p.buffer.unread] ∧
      q.writer.delivered = p.writer.delivered ++ bytesOf p.prefix_ ++ p.buffer.unread ∧
      q.buffer.unread = [] := by
  have hlen : p.buffer.Len > 0 := by
    unfold Buffer.Len
    exact List.length_pos.mpr hB
  have hbuf : bufCall p.buffer = [p.buffer.unread] := by
    unfold bufCall
    rw [if_pos hlen]
  refine ⟨{ p with
            buffer := ⟨[]⟩
            writer := p.writer.record (optCall p.prefix_ ++ [p.buffer.unread]) }, ?_, ?_, ?_, rfl⟩
  · unfold Close
    rw [if_pos hlen, writePrefix_of_acceptsAll p hw]
    simp only
    rw [flushBuffer_of_acceptsAll { p with writer := p.writer.record (optCall p.prefix_) } hw]
    simp only [Writer.record_record, hbuf]
  · simp [Writer.record, List.append_assoc]
  · simp [Writer.delivered_record, flatten_optCall, List.append_assoc]

/-- Witness of C4: prefix `=>`, pending buffer `hello`; the sink gets
`=>hello`. -/
theorem Close_flushes_prefix_and_buffer_witness :
    acceptAll.AcceptsAll ∧ bs "hello" ≠ [] ∧
    ∃ q : ShellPrinter,
      Close ⟨acceptAll, ⟨bs "hello"⟩, some (bs "=>"), none⟩ = .returned q none ∧
      q.writer.received = [bs "=>", bs "hello"] ∧
      q.writer.delivered = bs "=>hello" ∧
      q.buffer.unread = [] :=
  ⟨fun _ _ => rfl, by decide,
    Close_flushes_prefix_and_buffer ⟨acceptAll, ⟨bs "hello"⟩, some (bs "=>"), none⟩
      (fun _ _ => rfl) (by decide)⟩


/-- C5 (the code does not meet it). The pending buffer holds `hell` and the
sink answers the request `hell` with the count 5 and no error, a count
different from the requested length 4: the flush of the buffer fails, and
`Write("o\nworld")` does not return a count and an error, it panics inside
`bytes.Buffer.WriteTo` after this one sink call. -/
theorem Write_panics_on_overcounted_flush :
    (Write (New (mockSink [(bs "hell", ⟨5, none⟩)])) (bs "hell")).value? = some (4, none) ∧
    (Write (New (mockSink [(bs "hell", ⟨5, none⟩)])) (bs "hell")).buffer? = some (bs "hell") ∧
    (Write ⟨mockSink [(bs "hell", ⟨5, none⟩)], ⟨bs "hell"⟩, none, none⟩ (bs "o\nworld")).value?
      = none ∧
    (Write ⟨mockSink [(bs "hell", ⟨5, none⟩)], ⟨bs "hell"⟩, none, none⟩ (bs "o\nworld")).panic?
      = some "bytes.Buffer.WriteTo: invalid Write count" ∧
    (Write ⟨mockSink [(bs "hell", ⟨5, none⟩)], ⟨bs "hell"⟩, none, none⟩ (bs "o\nworld")).received?
      = some [bs "hell"] := by
  decide

/-- C6. On a sink that accepts every write in full and with an empty pending
buffer, for every body `b` without line feed, `Write(b ++ "\r\n")` makes the
sink calls prefix, `b`, suffix, `\r\n` (prefix and suffix only if non-empty),
so that the sink gets `P ++ b ++ S ++ "\r\n"`: the carriage return that stands
right before the line feed belongs to the terminator segment. Only that one
is moved: `Write(b ++ "\r\r\n")` makes the calls prefix, `b ++ "\r"`, suffix,
`\r\n`. -/
theorem Write_CR_LF (p : ShellPrinter) (b : Bytes) (hw : p.writer.AcceptsAll)
    (hB : p.buffer.unread = []) (hb : LF ∉ b) :
    (∃ q : ShellPrinter,
      Write p (b ++ [CR, LF]) = .returned q (b.length + 2, none) ∧
      q.writer.received
        = p.writer.received ++ optCall p.prefix_ ++ [b] ++ optCall p.suffix ++ [[CR, LF]] ∧
      q.writer.delivered
        = p.writer.delivered ++ bytesOf p.prefix_ ++ b ++ bytesOf p.suffix ++ [CR, LF] ∧
      q.buffer.unread = []) ∧
    (∃ q : ShellPrinter,
      Write p (b ++ [CR, CR, LF]) = .returned q (b.length + 3, none) ∧
      q.writer.received
        = p.writer.received ++ optCall p.prefix_ ++ [b ++ [CR]] ++ optCall p.suffix
          ++ [[CR, LF]] ∧
      q.writer.delivered
        = p.writer.delivered ++ bytesOf p.prefix_ ++ b ++ [CR] ++ bytesOf p.suffix ++ [CR, LF] ∧
      q.buffer.unread = []) := by
  have hbuf : bufCall p.buffer = [] := by
    unfold bufCall Buffer.Len
    rw [hB]
    rfl
  have key : ∀ body : Bytes, LF ∉ body →
      ∃ q : ShellPrinter,
        Write p (body ++ [CR, LF]) = .returned q (body.length + 2, none) ∧
        q.writer.received
          = p.writer.received ++ optCall p.prefix_ ++ [body] ++ optCall p.suffix ++ [[CR, LF]] ∧
        q.writer.delivered
          = p.writer.delivered ++ bytesOf p.prefix_ ++ body ++ bytesOf p.suffix ++ [CR, LF] ∧
        q.buffer.unread = [] := by
    intro body hbody
    have hwf : ∀ l ∈ [(⟨body, true⟩ : Line)], l.WellFormed := by
      intro l hl
      rw [List.mem_singleton.mp hl]
      exact ⟨hbody, fun h => by cases h⟩
    have h := Write_of_lines p [⟨body, true⟩] [] hw hwf (by simp)
    have hbytes : linesBytes [(⟨body, true⟩ : Line)] ++ [] = body ++ [CR, LF] := by
      simp [linesBytes, Line.bytes, Line.terminator]
    rw [hbytes] at h
    refine ⟨{ p with
              buffer := ⟨pendingAfter p.buffer [⟨body, true⟩] ++ []⟩
              writer := p.writer.record (linesCalls p.prefix_ p.suffix p.buffer [⟨body, true⟩]) },
      ?_, ?_, ?_, ?_⟩
    · rw [h]; simp
    · simp [Writer.record, linesCalls, hbuf, Line.terminator, List.append_assoc]
    · simp [Writer.delivered_record, linesCalls, hbuf, Line.terminator, flatten_optCall,
        List.append_assoc]
    · simp [pendingAfter]
  refine ⟨key b hb, ?_⟩
  have hb2 : LF ∉ b ++ [CR] := by
    simp only [List.mem_append, List.mem_singleton, not_or]
    exact ⟨hb, by decide⟩
  obtain ⟨q, h1, h2, h3, h4⟩ := key (b ++ [CR]) hb2
  refine ⟨q, ?_, h2, ?_, h4⟩
  · simpa [List.append_assoc] using h1
  · simpa [List.append_assoc] using h3

/-- Witness of C6: prefix `=>`, suffix `<=`, body `hello`. -/
theorem Write_CR_LF_witness :
    acceptAll.AcceptsAll ∧ LF ∉ bs "hello" ∧
    (∃ q : ShellPrinter,
      Write ⟨acceptAll, ⟨[]⟩, some (bs "=>"), some (bs "<=")⟩ (bs "hello\r\n")
        = .returned q (7, none) ∧
      q.writer.received = [bs "=>", bs "hello", bs "<=", bs "\r\n"] ∧
      q.writer.delivered = bs "=>hello<=\r\n" ∧
      q.buffer.unread = []) ∧
    (∃ q : ShellPrinter,
      Write ⟨acceptAll, ⟨[]⟩, some (bs "=>"), some (bs "<=")⟩ (bs "hello\r\r\n")
        = .returned q (8, none) ∧
      q.writer.received = [bs "=>", bs "hello\r", bs "<=", bs "\r\n"] ∧
      q.writer.delivered = bs "=>hello\r<=\r\n" ∧
      q.buffer.unread = []) :=
  ⟨fun _ _ => rfl, by decide,
    Write_CR_LF ⟨acceptAll, ⟨[]⟩, some (bs "=>"), some (bs "<=")⟩ (bs "hello")
      (fun _ _ => rfl) rfl (by decide)⟩

/-- C7. For every sink, whatever it would answer, and every pending buffer
`B`: `Write` of an input without line feed (carriage returns allowed) makes no
sink call, returns the length of the input and no error, and leaves the
pending buffer equal to `B ++ data`. -/
theorem Write_without_LF_only_buffers (p : ShellPrinter) (data : Bytes) (h : LF ∉ data) :
    Write p data
      = .returned { p with buffer := ⟨p.buffer.unread ++ data⟩ } (data.length, none) := by
  have := writeLoop_of_not_mem data.length p 0 data h
  simpa [Write] using this

/-- Witness of C7: a sink that fails every write, prefix `bad`, input `hello`
(and an input with a lone carriage return is covered as well). -/
theorem Write_without_LF_only_buffers_witness :
    LF ∉ bs "hello" ∧
    Write ((New (constSink ⟨0, some (.new "prefix error")⟩)).WithPrefixString "bad") (bs "hello")
      = .returned
          { (New (constSink ⟨0, some (.new "prefix error")⟩)).WithPrefixString "bad" with
            buffer := ⟨bs "hello"⟩ }
          (5, none) :=
  ⟨by decide,
    Write_without_LF_only_buffers
      ((New (constSink ⟨0, some (.new "prefix error")⟩)).WithPrefixString "bad") (bs "hello")
      (by decide)⟩


/-- C8. For every sink, prefix and suffix, `Close` on a printer whose pending
buffer is empty makes no sink call, returns no error and leaves the state as
it is. In particular, on a sink that accepts every write, after `Write` of an
input that ends with a line feed the pending buffer is empty and `Close` adds
nothing. -/
theorem Close_empty_buffer_noop :
    (∀ p : ShellPrinter, p.buffer.unread = [] → Close p = .returned p none) ∧
    (∀ (p : ShellPrinter) (d : Bytes), p.writer.AcceptsAll →
      ∃ q : ShellPrinter,
        Write p (d ++ [LF]) = .returned q ((d ++ [LF]).length, none) ∧
        q.buffer.unread = [] ∧ Close q = .returned q none) := by
  have h1 : ∀ p : ShellPrinter, p.buffer.unread = [] → Close p = .returned p none := by
    intro p hB
    unfold Close Buffer.Len
    simp [hB]
  refine ⟨h1, ?_⟩
  intro p d hw
  obtain ⟨ls, r, hd, hwf, hr⟩ := exists_lines d.length d rfl
  have hbytes : d ++ [LF] = linesBytes (ls ++ [Line.ofRaw r]) ++ [] := by
    rw [linesBytes_append, hd]
    simp [linesBytes, Line.bytes_ofRaw]
  have hwf2 : ∀ l ∈ ls ++ [Line.ofRaw r], l.WellFormed := by
    intro l hl
    rcases List.mem_append.mp hl with hl | hl
    · exact hwf l hl
    · rw [List.mem_singleton.mp hl]
      exact Line.wellFormed_ofRaw r hr
  have hW := Write_of_lines p (ls ++ [Line.ofRaw r]) [] hw hwf2 (by simp)
  rw [← hbytes] at hW
  have hpend : pendingAfter p.buffer (ls ++ [Line.ofRaw r]) ++ [] = [] := by
    cases ls <;> simp [pendingAfter]
  exact ⟨_, hW, hpend, h1 _ hpend⟩

/-- Witness of C8: suffix `<=`, `Write("hello\n")` then `Close`; the sink has
received `hello<=\n`. -/
theorem Close_empty_buffer_noop_witness :
    acceptAll.AcceptsAll ∧
    (∃ q : ShellPrinter,
      Write ((New acceptAll).WithSuffixString "<=") (bs "hello\n") = .returned q (6, none) ∧
      q.buffer.unread = [] ∧ Close q = .returned q none) ∧
    (writeAllThenClose ((New acceptAll).WithSuffixString "<=") [bs "hello\n"]).delivered?
      = some (bs "hello<=\n") :=
  ⟨fun _ _ => rfl,
    Close_empty_buffer_noop.2 ((New acceptAll).WithSuffixString "<=") (bs "hello")
      (fun _ _ => rfl),
    by decide⟩

/-- C9. For a printer without prefix and suffix on a sink that accepts every
write in full, and every sequence of chunks, `Write(c1); ...; Write(cn);
Close()` returns no error and hands the sink the pending bytes (none for a
fresh printer) followed by exactly `c1 ++ ... ++ cn`. -/
theorem writeAllThenClose_transparent (chunks : List Bytes) :
    ∀ p : ShellPrinter, p.writer.AcceptsAll → len p.prefix_ = 0 → len p.suffix = 0 →
      ∃ q : ShellPrinter,
        writeAllThenClose p chunks = .returned q none ∧
        q.writer.delivered = p.writer.delivered ++ p.buffer.unread ++ chunks.flatten ∧
        q.buffer.unread = [] := by
  induction chunks with
  | nil =>
    intro p hw hP _
    obtain ⟨q, h1, h2, h3⟩ := Close_of_acceptsAll p hw
    refine ⟨q, h1, ?_, h2⟩
    rw [h3, bytesOf_of_len_eq_zero _ hP]
    by_cases hB : p.buffer.unread = [] <;> simp [hB]
  | cons c cs ih =>
    intro p hw hP hS
    obtain ⟨q, h1, h2, h3, h4, h5⟩ := Write_transparent p c hw hP hS
    obtain ⟨q2, k1, k2, k3⟩ := ih q h2 (h3 ▸ hP) (h4 ▸ hS)
    refine ⟨q2, ?_, ?_, k3⟩
    · simp only [writeAllThenClose, h1]
      exact k1
    · rw [k2, h5]
      simp [List.append_assoc]

/-- Witness of C9: a fresh printer, `Write("hello")` then `Close`; the sink
gets `hello`. -/
theorem writeAllThenClose_transparent_witness :
    acceptAll.AcceptsAll ∧ len (New acceptAll).prefix_ = 0 ∧ len (New acceptAll).suffix = 0 ∧
    ∃ q : ShellPrinter,
      writeAllThenClose (New acceptAll) [bs "hello"] = .returned q none ∧
      q.writer.delivered = bs "hello" ∧
      q.buffer.unread = [] :=
  ⟨fun _ _ => rfl, rfl, rfl,
    writeAllThenClose_transparent [bs "hello"] (New acceptAll) (fun _ _ => rfl) rfl rfl⟩

/-- C10 (the code does not meet it). The pending buffer holds `hell` and the
sink answers the request `hell` with the error `flush buffer error` and the
count 5: `Close` does not return that error wrapped with the label of the
buffer step, it panics inside `bytes.Buffer.WriteTo`, which looks at the count
before the error. With the count 4 the wrapped error is returned, and the
prefix step returns the wrapped error whatever the count is. -/
theorem Close_panics_on_overcounted_flush_error :
    (Close ⟨mockSink [(bs "hell", ⟨5, some (.new "flush buffer error")⟩)],
        ⟨bs "hell"⟩, none, none⟩).value? = none ∧
    (Close ⟨mockSink [(bs "hell", ⟨5, some (.new "flush buffer error")⟩)],
        ⟨bs "hell"⟩, none, none⟩).panic? = some "bytes.Buffer.WriteTo: invalid Write count" ∧
    ((Close ⟨mockSink [(bs "hell", ⟨4, some (.new "flush buffer error")⟩)],
        ⟨bs "hell"⟩, none, none⟩).value?.map (Option.map GoError.Error))
      = some (some "failed to flush buffer: flush buffer error") ∧
    ((Close ⟨mockSink [(bs "bad", ⟨5, some (.new "prefix error")⟩)],
        ⟨bs "hell"⟩, some (bs "bad"), none⟩).value?.map (Option.map GoError.Error))
      = some (some "failed to write prefix: prefix error") := by
  decide

/-- C11 (the code does not meet it). The pending buffer holds `hell` and the
sink answers the request `hell` with the count 2 and no error: `Write` and
`Close` fail at the buffer step, but the error they return is `failed to flush
buffer: short write`, not the inconsistency error with the expected length 4
and the actual count 2. The prefix step, for the same kind of answer, returns
`inconsistency when writing prefix: prefix len = 3, actually written = 1`. -/
theorem flush_short_count_is_not_an_inconsistency :
    ((Write ⟨mockSink [(bs "hell", ⟨2, none⟩)], ⟨bs "hell"⟩, none, none⟩
        (bs "o\nworld")).value?.map (fun v => (v.1, v.2.map GoError.Error)))
      = some (0, some "failed to flush buffer: short write") ∧
    ((Close ⟨mockSink [(bs "hell", ⟨2, none⟩)], ⟨bs "hell"⟩, none, none⟩).value?.map
        (Option.map GoError.Error))
      = some (some "failed to flush buffer: short write") ∧
    (inconsistency "flushing buffer" "buffer" 4 2).Error
      = "inconsistency when flushing buffer: buffer len = 4, actually written = 2" ∧
    ((Write ((New (mockSink [(bs "bad", ⟨1, none⟩)])).WithPrefixString "bad")
        (bs "hello\nworld")).value?.map (fun v => (v.1, v.2.map GoError.Error)))
      = some (0, some "inconsistency when writing prefix: prefix len = 3, actually written = 1") := by
  decide

/-- C12. For every sink, printer and input, `Write` ends (it returns or
panics) having put to the sink a list of requests of which every one but
the last was accepted in full: a request that fails is the last one of the
call and is made once. When a request failed, the pending buffer afterwards is
a tail of what it was before (the rest of the input was not appended) and the
call did not return a nil error. The same holds for `Close`. -/
theorem fail_fast :
    (∀ (p : ShellPrinter) (data : Bytes), ∃ (q : ShellPrinter) (calls : List Bytes),
      (Write p data).state? = some q ∧
      q.writer = p.writer.record calls ∧
      p.writer.allOk calls.dropLast ∧
      (¬p.writer.allOk calls →
        q.buffer.unread <:+ p.buffer.unread ∧ ∀ n, (Write p data).value? ≠ some (n, none))) ∧
    (∀ p : ShellPrinter, ∃ (q : ShellPrinter) (calls : List Bytes),
      (Close p).state? = some q ∧
      q.writer = p.writer.record calls ∧
      p.writer.allOk calls.dropLast ∧
      (¬p.writer.allOk calls →
        q.buffer.unread <:+ p.buffer.unread ∧ (Close p).value? ≠ some none)) := by
  have hdrop : ∀ (w : Writer) (xs : List Bytes), w.allOk xs → w.allOk xs.dropLast := by
    intro w xs h
    rcases List.eq_nil_or_concat xs with rfl | ⟨ys, y, rfl⟩
    · exact h
    · rw [List.concat_eq_append] at h ⊢
      rw [List.dropLast_concat]
      exact ((Writer.allOk_append ys w [y]).mp h).1
  constructor
  · intro p data
    obtain ⟨ls, r, hd, hwf, hr⟩ := exists_lines data.length data rfl
    rw [hd, Write_any p ls r hwf hr]
    cases hf : firstFailure p.writer (linesSteps p.prefix_ p.suffix p.buffer ls) with
    | none =>
      have hall := firstFailure_none _ _ hf
      rw [callsOf_linesSteps] at hall
      exact ⟨_, linesCalls p.prefix_ p.suffix p.buffer ls, rfl, rfl, hdrop _ _ hall,
        fun h => absurd hall h⟩
    | some f =>
      obtain ⟨h1, _, _⟩ := firstFailure_some _ _ _ hf
      rw [Option.elim_some]
      unfold failedWrite
      by_cases hp : f.panics
      · rw [if_pos hp]
        refine ⟨_, callsOf f.accepted ++ [f.data], rfl, rfl, ?_, fun _ => ⟨?_, ?_⟩⟩
        · rw [List.dropLast_concat]; exact h1
        · exact List.suffix_refl _
        · intro n; simp [Outcome.value?]
      · rw [if_neg hp]
        refine ⟨_, callsOf f.accepted ++ [f.data], rfl, rfl, ?_, fun _ => ⟨?_, ?_⟩⟩
        · rw [List.dropLast_concat]; exact h1
        · exact bufferAfter_suffix _ _
        · intro n; simp [Outcome.value?]
  · intro p
    rw [Close_any p]
    cases hf : firstFailure p.writer (closeSteps p.prefix_ p.buffer) with
    | none =>
      have hall := firstFailure_none _ _ hf
      exact ⟨_, callsOf (closeSteps p.prefix_ p.buffer), rfl, rfl, hdrop _ _ hall,
        fun h => absurd hall h⟩
    | some f =>
      obtain ⟨h1, _, _⟩ := firstFailure_some _ _ _ hf
      rw [Option.elim_some]
      unfold failedClose
      by_cases hp : f.panics
      · rw [if_pos hp]
        refine ⟨_, callsOf f.accepted ++ [f.data], rfl, rfl, ?_, fun _ => ⟨?_, ?_⟩⟩
        · rw [List.dropLast_concat]; exact h1
        · exact List.suffix_refl _
        · simp [Outcome.value?]
      · rw [if_neg hp]
        refine ⟨_, callsOf f.accepted ++ [f.data], rfl, rfl, ?_, fun _ => ⟨?_, ?_⟩⟩
        · rw [List.dropLast_concat]; exact h1
        · exact bufferAfter_suffix _ _
        · simp [Outcome.value?]

/-- Counterexample to C13. Suffix `bad`, a sink that fails on `bad`, input
`hello\nworld`: the write fails at the suffix step of the first line, no line
has been emitted completely, and still `Write` returns the count 5, the
length of the body of the failed line, not 0. -/
theorem count_includes_body_of_failed_line :
    ((Write ((New (mockSink [(bs "bad", ⟨0, some (.new "suffix error")⟩)])).WithSuffixString
        "bad") (bs "hello\nworld")).value?.map (fun v => (v.1, v.2.map GoError.Error)))
      = some (5, some "failed to write suffix: suffix error") ∧
    (Write ((New (mockSink [(bs "bad", ⟨0, some (.new "suffix error")⟩)])).WithSuffixString
        "bad") (bs "hello\nworld")).received? = some [bs "hello", bs "bad"] ∧
    ((Write ((New (mockSink [(bs "bad", ⟨0, some (.new "suffix error")⟩)])).WithSuffixString
        "bad") (bs "hello\nworld")).value?.map Prod.fst) ≠ some 0 := by
  decide

/-- C13, amended. For every sink and every input given as well-formed lines
and a remainder: when the first request that the sink does not accept is `f`
(and it is not a flush that reports more than it was given), that request is a
step of one line `l`, after the lines `done` were emitted completely, and
`Write` returns the error of that step with the count `len(done)` plus, when
the step is the suffix or the terminator, the length of the body of `l`: the
count never holds a prefix, suffix, pending-buffer or terminator byte of the
failed line, and holds its body once the body was written. -/
theorem Write_count_on_failure (p : ShellPrinter) (ls : List Line) (r : Bytes) (f : Failure)
    (hwf : ∀ l ∈ ls, l.WellFormed) (hr : LF ∉ r)
    (hf : firstFailure p.writer (linesSteps p.prefix_ p.suffix p.buffer ls) = some f)
    (hnp : ¬f.panics) :
    ∃ (done : List Line) (l : Line) (rest : List Line) (before after : List (Step × Bytes))
      (q : ShellPrinter),
      ls = done ++ l :: rest ∧
      lineSteps p.prefix_ p.suffix ⟨pendingAfter p.buffer done⟩ l
        = before ++ (f.step, f.data) :: after ∧
      f.accepted = linesSteps p.prefix_ p.suffix p.buffer done ++ before ∧
      Write p (linesBytes ls ++ r)
        = .returned q
            ((linesBytes done).length
              + (if f.step = .suf ∨ f.step = .newline then l.body.length else 0),
             some (failureError f.step f.data f.result)) := by
  have hmem := firstFailure_mem _ _ _ hf
  obtain ⟨done, l, rest, before, after, e1, e2, e3⟩ :=
    locate_step p.prefix_ p.suffix ls p.buffer f.accepted _ (f.step, f.data) hmem
  have hcount : countOf f.accepted
      = (linesBytes done).length
        + (if f.step = .suf ∨ f.step = .newline then l.body.length else 0) := by
    rw [e3, countOf_append, countOf_linesSteps,
      countOf_before _ _ _ _ _ _ _ _ e2]
  refine ⟨done, l, rest, before, after,
    { p with writer := f.writer p.writer, buffer := bufferAfter p.buffer f }, e1, e2, e3, ?_⟩
  rw [Write_any p ls r hwf hr, hf, Option.elim_some]
  unfold failedWrite
  rw [if_neg hnp, hcount, Nat.zero_add]

/-- Witness of C13, amended: suffix `bad`, a sink that fails on `bad`, input
`hello\nworld`; the failing request is the suffix of the first line. -/
theorem Write_count_on_failure_witness :
    (∀ l ∈ [(⟨bs "hello", false⟩ : Line)], l.WellFormed) ∧ LF ∉ bs "world" ∧
    firstFailure (mockSink [(bs "bad", ⟨0, some (.new "suffix error")⟩)])
        (linesSteps none (some (bs "bad")) ⟨[]⟩ [⟨bs "hello", false⟩])
      = some ⟨[(.body, bs "hello")], .suf, bs "bad", ⟨0, some (.new "suffix error")⟩⟩ ∧
    ∃ (done : List Line) (l : Line) (rest : List Line) (before after : List (Step × Bytes))
      (q : ShellPrinter),
      [(⟨bs "hello", false⟩ : Line)] = done ++ l :: rest ∧
      lineSteps none (some (bs "bad")) ⟨pendingAfter ⟨[]⟩ done⟩ l
        = before ++ (Step.suf, bs "bad") :: after ∧
      [(Step.body, bs "hello")] = linesSteps none (some (bs "bad")) ⟨[]⟩ done ++ before ∧
      Write ((New (mockSink [(bs "bad", ⟨0, some (.new "suffix error")⟩)])).WithSuffixString
          "bad") (bs "hello\nworld")
        = .returned q
            ((linesBytes done).length
              + (if Step.suf = .suf ∨ Step.suf = .newline then l.body.length else 0),
             some (.wrap (.new "suffix error") "failed to write suffix")) :=
  ⟨by decide, by decide, by decide,
    Write_count_on_failure
      ((New (mockSink [(bs "bad", ⟨0, some (.new "suffix error")⟩)])).WithSuffixString "bad")
      [⟨bs "hello", false⟩] (bs "world")
      ⟨[(.body, bs "hello")], .suf, bs "bad", ⟨0, some (.new "suffix error")⟩⟩
      (by decide) (by decide) (by decide) (by decide)⟩

/-- Counterexample to C14. No prefix, no suffix, a sink that accepts every
write, the pending buffer holds `hell`: `Write("o")`, whose input has no
terminator, makes no sink call, not the one call `2 * 0 + 1` for a non-empty
pending buffer. -/
theorem no_flush_call_without_terminator :
    (bs "o").count LF = 0 ∧ bs "hell" ≠ [] ∧
    ((Write ⟨acceptAll, ⟨bs "hell"⟩, none, none⟩ (bs "o")).received?.map List.length)
      = some 0 ∧
    ((Write ⟨acceptAll, ⟨bs "hell"⟩, none, none⟩ (bs "o")).received?.map List.length)
      ≠ some (2 * 0 + 1) := by
  decide

/-- C14, amended. For every sink, the prefix step (resp. the suffix step)
makes no sink call when the prefix (resp. the suffix) is nil or empty. On a
sink that accepts every write, `Write` of an input with `k` terminators makes
exactly the calls prefix, pending buffer, body, suffix, terminator for the
first line and prefix, body, suffix, terminator for every other line, where
the prefix and the suffix are called (verbatim) only if non-empty and the
pending buffer only if non-empty: `k * (2 + prefix + suffix)` calls, plus one
for a non-empty pending buffer when `k ≥ 1`; and `Close` makes the calls prefix
(if non-empty) and pending buffer when the buffer is non-empty, none
otherwise. -/
theorem sink_calls (p : ShellPrinter) :
    (len p.prefix_ = 0 → writePrefix p = (p, none)) ∧
    (len p.suffix = 0 → writeSuffix p = (p, none)) ∧
    (p.writer.AcceptsAll →
      ∀ data : Bytes, ∃ (ls : List Line) (r : Bytes) (q : ShellPrinter),
        data = linesBytes ls ++ r ∧ ls.length = data.count LF ∧
        Write p data = .returned q (data.length, none) ∧
        q.writer.received = p.writer.received ++ linesCalls p.prefix_ p.suffix p.buffer ls ∧
        (linesCalls p.prefix_ p.suffix p.buffer ls).length
          = data.count LF * (2 + (optCall p.prefix_).length + (optCall p.suffix).length)
            + (if data.count LF ≥ 1 ∧ p.buffer.unread ≠ [] then 1 else 0)) ∧
    (p.writer.AcceptsAll →
      ∃ q : ShellPrinter, Close p = .returned q none ∧
        q.writer.received
          = p.writer.received
            ++ (if p.buffer.unread = [] then []
                else optCall p.prefix_ ++ [p.buffer.unread])) := by
  refine ⟨fun h => writePrefix_of_not_pos p (by omega),
    fun h => writeSuffix_of_not_pos p (by omega), ?_, ?_⟩
  · intro hw data
    obtain ⟨ls, r, hd, hwf, hr⟩ := exists_lines data.length data rfl
    have hk : ls.length = data.count LF := by
      rw [hd, count_LF_data ls r hwf hr]
    refine ⟨ls, r,
      { p with
        buffer := ⟨pendingAfter p.buffer ls ++ r⟩
        writer := p.writer.record (linesCalls p.prefix_ p.suffix p.buffer ls) },
      hd, hk, ?_, rfl, ?_⟩
    · conv_lhs => rw [hd]
      rw [Write_of_lines p ls r hw hwf hr, ← hd]
    · rw [length_linesCalls, hk]
      congr 1
      by_cases hB : p.buffer.unread = []
      · have : bufCall p.buffer = [] := by simp [bufCall, Buffer.Len, hB]
        simp [this, hB]
      · have hlen : p.buffer.Len > 0 := List.length_pos.mpr hB
        have : bufCall p.buffer = [p.buffer.unread] := by simp [bufCall, hlen]
        have hiff : ls ≠ [] ↔ data.count LF ≥ 1 := by
          rw [← hk]
          cases ls <;> simp
        by_cases hl : ls ≠ []
        · simp [this, hB, hl, hiff.mp hl]
        · have : ¬data.count LF ≥ 1 := fun h => hl (hiff.mpr h)
          simp [hl, this]
  · intro hw
    rw [Close_any p]
    have hnone := firstFailure_of_acceptsAll (closeSteps p.prefix_ p.buffer) p.writer hw
    rw [hnone, Option.elim_none]
    refine ⟨_, rfl, ?_⟩
    by_cases hB : p.buffer.unread = []
    · simp [closeSteps, Buffer.Len, hB, callsOf_nil, Writer.record]
    · have hlen : p.buffer.Len > 0 := List.length_pos.mpr hB
      simp [closeSteps, hlen, hB, callsOf_append, callsOf_optStep, callsOf_cons, callsOf_nil,
        Writer.record]

/-- Witness of C14, amended. A sink that fails every write and a printer
without prefix: the prefix step returns at once, with nothing recorded by the
sink. A sink that accepts every write, prefix `=>`, no suffix and the pending
buffer `magnif`: `Write("icent\nworld")`, whose input has one terminator,
makes `1 * (2 + 1 + 0) + 1 = 4` sink calls, and `Close` on that printer makes
the two calls `=>` and `magnif`. -/
theorem sink_calls_witness :
    writePrefix (New (constSink ⟨0, some (.new "prefix error")⟩))
      = (New (constSink ⟨0, some (.new "prefix error")⟩), none) ∧
    acceptAll.AcceptsAll ∧
    (∃ (ls : List Line) (r : Bytes) (q : ShellPrinter),
      bs "icent\nworld" = linesBytes ls ++ r ∧
      ls.length = (bs "icent\nworld").count LF ∧
      Write ⟨acceptAll, ⟨bs "magnif"⟩, some (bs "=>"), none⟩ (bs "icent\nworld")
        = .returned q (11, none) ∧
      q.writer.received = [] ++ linesCalls (some (bs "=>")) none ⟨bs "magnif"⟩ ls ∧
      (linesCalls (some (bs "=>")) none ⟨bs "magnif"⟩ ls).length = 1 * (2 + 1 + 0) + 1) ∧
    (∃ q : ShellPrinter,
      Close ⟨acceptAll, ⟨bs "magnif"⟩, some (bs "=>"), none⟩ = .returned q none ∧
      q.writer.received = [] ++ [bs "=>", bs "magnif"]) :=
  ⟨(sink_calls (New (constSink ⟨0, some (.new "prefix error")⟩))).1 rfl,
    fun _ _ => rfl,
    (sink_calls ⟨acceptAll, ⟨bs "magnif"⟩, some (bs "=>"), none⟩).2.2.1 (fun _ _ => rfl)
      (bs "icent\nworld"),
    (sink_calls ⟨acceptAll, ⟨bs "magnif"⟩, some (bs "=>"), none⟩).2.2.2 (fun _ _ => rfl)⟩

/-- C15. Starting from a freshly created printer (with any prefix and suffix
set), after any sequence of `Write` and `Close` calls, with any inputs and on
any sink (whatever the calls returned, a panic included), the pending buffer
holds no line feed. -/
theorem buffer_never_holds_LF (w : Writer) (pre suf : Option Bytes) (ops : List Op) :
    LF ∉ (runOps (((New w).WithPrefix pre).WithSuffix suf) ops).buffer.unread :=
  runOps_keeps_invariant ops _ (by simp [New, WithPrefix, WithSuffix])

/-- C16. The scanner never reports an error, whatever the input and the
end-of-file flag, and `Write` never returns an error with the label
`failed to scan lines`. -/
theorem scan_error_is_nil :
    (∀ (data : Bytes) (atEOF : Bool), (ScanLines data atEOF).2.2 = none) ∧
    (∀ (p q : ShellPrinter) (data : Bytes) (n : Nat) (cause : GoError),
      Write p data ≠ .returned q (n, some (.wrap cause "failed to scan lines"))) := by
  constructor
  · intro data atEOF
    unfold ScanLines
    split
    · rfl
    · dsimp only
      split
      · rfl
      · split <;> rfl
  · intro p q data n cause
    obtain ⟨ls, r, hd, hwf, hr⟩ := exists_lines data.length data rfl
    rw [hd, Write_any p ls r hwf hr]
    cases firstFailure p.writer (linesSteps p.prefix_ p.suffix p.buffer ls) with
    | none => simp
    | some f =>
      rw [Option.elim_some]
      unfold failedWrite
      split
      · simp
      · intro h
        simp only [Outcome.returned.injEq, Prod.mk.injEq, Option.some.injEq] at h
        exact failureError_ne_scan _ _ _ _ h.2.2

/-- C17. For every sink, printer and input, `Write` returns a count `n` and
an error with `n ≤ len(data)`, the error being nil exactly when
`n = len(data)`; the one other way it ends is the panic of
`bytes.Buffer.WriteTo`, which needs a sink that reports more bytes than it was
given. -/
theorem Write_count_bounds (p : ShellPrinter) (data : Bytes) :
    (∃ (q : ShellPrinter) (n : Nat) (err : Option GoError),
      Write p data = .returned q (n, err) ∧
      n ≤ data.length ∧ (err = none ↔ n = data.length)) ∨
    (∃ (q : ShellPrinter) (history : List Bytes) (d : Bytes),
      Write p data = .panicked q "bytes.Buffer.WriteTo: invalid Write count" ∧
      (p.writer.behaviour history d).n > d.length) := by
  obtain ⟨ls, r, hd, hwf, hr⟩ := exists_lines data.length data rfl
  rw [hd, Write_any p ls r hwf hr]
  cases hf : firstFailure p.writer (linesSteps p.prefix_ p.suffix p.buffer ls) with
  | none =>
    left
    exact ⟨_, _, none, rfl, le_refl _, by simp⟩
  | some f =>
    rw [Option.elim_some]
    unfold failedWrite
    by_cases hp : f.panics
    · right
      rw [if_pos hp]
      obtain ⟨_, h2, _⟩ := firstFailure_some _ _ _ hf
      refine ⟨_, (p.writer.record (callsOf f.accepted)).received, f.data, rfl, ?_⟩
      have := hp.2
      rw [h2] at this
      exact this
    · left
      rw [if_neg hp]
      have hlt := countOf_accepted_lt _ _ _ _ _ _ hf
      refine ⟨_, _, _, rfl, ?_, ?_⟩
      · simp only [List.length_append]
        omega
      · simp only [List.length_append, reduceCtorEq, false_iff]
        omega

/-- C18. For every non-empty pending buffer `B` and non-empty prefix, when the
sink does not accept the prefix write (error or count mismatch): `Close`, and
`Write` of any input that holds a line, return the error of the prefix step
after that single sink call, with the pending buffer still equal to `B`; and a
later `Close`, if the sink then accepts the prefix and `B`, makes exactly the
calls prefix and `B` and empties the buffer. -/
theorem prefix_failure_keeps_buffer (p : ShellPrinter)
    (hB : p.buffer.unread ≠ []) (hP : len p.prefix_ > 0)
    (hfail : ¬(p.writer.behaviour p.writer.received (bytesOf p.prefix_)).ok
      (bytesOf p.prefix_)) :
    Close p
      = .returned { p with writer := p.writer.record [bytesOf p.prefix_] }
          (some (failureError .pre (bytesOf p.prefix_)
            (p.writer.behaviour p.writer.received (bytesOf p.prefix_)))) ∧
    (∀ data : Bytes, LF ∈ data →
      Write p data
        = .returned { p with writer := p.writer.record [bytesOf p.prefix_] }
            (0, some (failureError .pre (bytesOf p.prefix_)
              (p.writer.behaviour p.writer.received (bytesOf p.prefix_))))) ∧
    ((p.writer.behaviour (p.writer.received ++ [bytesOf p.prefix_]) (bytesOf p.prefix_)).ok
        (bytesOf p.prefix_) →
      (p.writer.behaviour (p.writer.received ++ [bytesOf p.prefix_, bytesOf p.prefix_])
        p.buffer.unread).ok p.buffer.unread →
      Close { p with writer := p.writer.record [bytesOf p.prefix_] }
        = .returned
            { p with
              buffer := ⟨[]⟩
              writer := p.writer.record
                [bytesOf p.prefix_, bytesOf p.prefix_, p.buffer.unread] }
            none) := by
  have hlen : p.buffer.Len > 0 := List.length_pos.mpr hB
  have hpre := writePrefix_of_not_ok p hP hfail
  refine ⟨?_, ?_, ?_⟩
  · unfold Close
    rw [if_pos hlen, hpre]
  · intro data hm
    obtain ⟨l, r, hd, hl⟩ := List.eq_append_cons_of_mem hm
    subst hd
    unfold Write
    conv_lhs => unfold writeLoop
    rw [ScanLines_append_cons l r hl]
    simp only [Nat.add_one_ne_zero, if_false, hpre]
  · intro hok1 hok2
    have hpre2 := writePrefix_of_ok { p with writer := p.writer.record [bytesOf p.prefix_] }
      hP hok1
    have hflush := flushBuffer_of_ok
      { p with writer := (p.writer.record [bytesOf p.prefix_]).record [bytesOf p.prefix_] }
      hlen (by simpa [Writer.record] using hok2)
    unfold Close
    rw [if_pos hlen, hpre2]
    simp only
    rw [hflush]
    simp [Writer.record]

/-- Witness of C18: prefix `bad`, pending buffer `hello`, a sink that fails
its first write and accepts the later ones. -/
theorem prefix_failure_keeps_buffer_witness :
    bs "hello" ≠ [] ∧ len (some (bs "bad")) > 0 ∧
    Close ⟨⟨fun h d => if h = [] then ⟨0, some (.new "prefix error")⟩ else ⟨d.length, none⟩, []⟩,
        ⟨bs "hello"⟩, some (bs "bad"), none⟩
      = .returned
          ⟨⟨fun h d => if h = [] then ⟨0, some (.new "prefix error")⟩ else ⟨d.length, none⟩,
            [bs "bad"]⟩, ⟨bs "hello"⟩, some (bs "bad"), none⟩
          (some (.wrap (.new "prefix error") "failed to write prefix")) ∧
    Close ⟨⟨fun h d => if h = [] then ⟨0, some (.new "prefix error")⟩ else ⟨d.length, none⟩,
          [bs "bad"]⟩, ⟨bs "hello"⟩, some (bs "bad"), none⟩
      = .returned
          ⟨⟨fun h d => if h = [] then ⟨0, some (.new "prefix error")⟩ else ⟨d.length, none⟩,
            [bs "bad", bs "bad", bs "hello"]⟩, ⟨[]⟩, some (bs "bad"), none⟩
          none :=
  ⟨by decide, by decide,
    (prefix_failure_keeps_buffer
      ⟨⟨fun h d => if h = [] then ⟨0, some (.new "prefix error")⟩ else ⟨d.length, none⟩, []⟩,
        ⟨bs "hello"⟩, some (bs "bad"), none⟩ (by decide) (by decide) (by decide)).1,
    (prefix_failure_keeps_buffer
      ⟨⟨fun h d => if h = [] then ⟨0, some (.new "prefix error")⟩ else ⟨d.length, none⟩, []⟩,
        ⟨bs "hello"⟩, some (bs "bad"), none⟩ (by decide) (by decide) (by decide)).2.2
      (by decide) (by decide)⟩

/-- C19. The prefix step of a call has succeeded (or was skipped), leaving
the printer `p` with a non-empty pending buffer `B`, and the sink answers the
flush of `B` with a count `m ≤ len(B)` and an error `e`. Then the flush step,
and with it `Close` and `Write` of any input that holds a line, return `e`
wrapped with the label of the buffer step, and the pending buffer afterwards is
`B` without its first `m` bytes. When `m = len(B)` the buffer is empty
although the call failed, and a following `Close` makes no sink call. -/
theorem flush_failure_consumes (p0 p : ShellPrinter) (m : Nat) (e : GoError)
    (hpre : writePrefix p0 = (p, none))
    (hB : p.buffer.unread ≠ [])
    (hresp : p.writer.behaviour p.writer.received p.buffer.unread = ⟨m, some e⟩)
    (hm : m ≤ p.buffer.unread.length) :
    flushBuffer p
      = .returned
          { p with
            buffer := ⟨p.buffer.unread.drop m⟩
            writer := p.writer.record [p.buffer.unread] }
          (some (.wrap e "failed to flush buffer")) ∧
    Close p0
      = .returned
          { p with
            buffer := ⟨p.buffer.unread.drop m⟩
            writer := p.writer.record [p.buffer.unread] }
          (some (.wrap e "failed to flush buffer")) ∧
    (∀ data : Bytes, LF ∈ data →
      Write p0 data
        = .returned
            { p with
              buffer := ⟨p.buffer.unread.drop m⟩
              writer := p.writer.record [p.buffer.unread] }
            (0, some (.wrap e "failed to flush buffer"))) ∧
    (m = p.buffer.unread.length →
      Close { p with
              buffer := ⟨p.buffer.unread.drop m⟩
              writer := p.writer.record [p.buffer.unread] }
        = .returned
            { p with
              buffer := ⟨p.buffer.unread.drop m⟩
              writer := p.writer.record [p.buffer.unread] }
            none) := by
  have hlen : p.buffer.Len > 0 := List.length_pos.mpr hB
  have hbuf : p0.buffer = p.buffer := by
    rcases writePrefix_cases p0 with ⟨_, c⟩ | ⟨_, c⟩
    · rw [c] at hpre
      simp only [Prod.mk.injEq, and_true] at hpre
      rw [← hpre]
    · rw [c] at hpre
      simp at hpre
  have hnok : ¬(p.writer.behaviour p.writer.received p.buffer.unread).ok p.buffer.unread := by
    rw [hresp]
    intro h
    simp [WriteResult.ok] at h
  have hnov : ¬(p.writer.behaviour p.writer.received p.buffer.unread).n
      > p.buffer.unread.length := by
    rw [hresp]
    simp only [gt_iff_lt, not_lt]
    exact hm
  have hflush := flushBuffer_of_not_ok p hlen hnok hnov
  rw [hresp] at hflush
  simp only [failureError, stepLabel] at hflush
  refine ⟨hflush, ?_, ?_, ?_⟩
  · unfold Close
    rw [hbuf, if_pos hlen, hpre]
    exact hflush
  · intro data hmem
    obtain ⟨l, r, hd, hl⟩ := List.eq_append_cons_of_mem hmem
    subst hd
    unfold Write
    conv_lhs => unfold writeLoop
    rw [ScanLines_append_cons l r hl]
    simp only [Nat.add_one_ne_zero, if_false, hpre, hflush]
  · intro hfull
    unfold Close Buffer.Len
    simp [hfull]

/-- Witness of C19: no prefix, pending buffer `hell`, the sink answers the
flush with the count 4 and an error; the buffer is empty afterwards. -/
theorem flush_failure_consumes_witness :
    bs "hell" ≠ [] ∧ 4 ≤ (bs "hell").length ∧
    Close ⟨mockSink [(bs "hell", ⟨4, some (.new "flush buffer error")⟩)], ⟨bs "hell"⟩,
        none, none⟩
      = .returned
          ⟨(mockSink [(bs "hell", ⟨4, some (.new "flush buffer error")⟩)]).record [bs "hell"],
            ⟨[]⟩, none, none⟩
          (some (.wrap (.new "flush buffer error") "failed to flush buffer")) ∧
    Close ⟨(mockSink [(bs "hell", ⟨4, some (.new "flush buffer error")⟩)]).record [bs "hell"],
        ⟨[]⟩, none, none⟩
      = .returned
          ⟨(mockSink [(bs "hell", ⟨4, some (.new "flush buffer error")⟩)]).record [bs "hell"],
            ⟨[]⟩, none, none⟩
          none :=
  ⟨by decide, by decide,
    (flush_failure_consumes
      ⟨mockSink [(bs "hell", ⟨4, some (.new "flush buffer error")⟩)], ⟨bs "hell"⟩, none, none⟩
      ⟨mockSink [(bs "hell", ⟨4, some (.new "flush buffer error")⟩)], ⟨bs "hell"⟩, none, none⟩
      4 (.new "flush buffer error") rfl (by decide) rfl (by decide)).2.1,
    (flush_failure_consumes
      ⟨mockSink [(bs "hell", ⟨4, some (.new "flush buffer error")⟩)], ⟨bs "hell"⟩, none, none⟩
      ⟨mockSink [(bs "hell", ⟨4, some (.new "flush buffer error")⟩)], ⟨bs "hell"⟩, none, none⟩
      4 (.new "flush buffer error") rfl (by decide) rfl (by decide)).2.2.2 rfl⟩

/-- C20. Whenever the scanner reports a line, the position it returns is at
least 1 and at most `len(dataRemainder)`, the token is shorter than it, and
both slice expressions of the loop are in bounds. So every iteration consumes
at least one line feed: for every sink, a budget of one step per line feed of
the input (and one to leave the loop) is never exhausted and gives the result
of `Write`, which never panics on a slice. -/
theorem loop_terminates :
    (∀ data : Bytes, (ScanLines data false).1 ≠ 0 →
      1 ≤ (ScanLines data false).1 ∧
      (ScanLines data false).1 ≤ data.length ∧
      (ScanLines data false).2.1.length < (ScanLines data false).1 ∧
      (slice data (ScanLines data false).2.1.length (ScanLines data false).1).isSome = true ∧
      (slice data (ScanLines data false).1 data.length).isSome = true) ∧
    (∀ (fuel : Nat) (p : ShellPrinter) (data : Bytes), data.count LF < fuel →
      writeLoop fuel p 0 data = Write p data) ∧
    (∀ (p : ShellPrinter) (data : Bytes), Write p data ≠ .outOfFuel) ∧
    (∀ (p q : ShellPrinter) (data : Bytes),
      Write p data ≠ .panicked q "slice bounds out of range") := by
  refine ⟨ScanLines_bounds, ?_, Write_ne_outOfFuel, ?_⟩
  · intro fuel p data h
    rw [Write_eq_writeLoop_count]
    exact writeLoop_fuel_irrelevant _ _ p 0 data h (Nat.lt_succ_self _)
  · intro p q data
    obtain ⟨ls, r, hd, hwf, hr⟩ := exists_lines data.length data rfl
    rw [hd, Write_any p ls r hwf hr]
    cases firstFailure p.writer (linesSteps p.prefix_ p.suffix p.buffer ls) with
    | none => simp
    | some f =>
      rw [Option.elim_some]
      unfold failedWrite
      split <;> simp

end ShellPrinter
